import Mathlib

/-!
Verification of `quicktile/util.py`.

This file gives a shallow embedding of the module's pure logic:

* `clamp_idx` — the index clamping helper (`util.py`, lines 26–37);
* `fmt_table` / `fmt_row` — the textual table formatter (`util.py`, lines
  47–111), with rows and headers as `List String` values.  Python's
  partial operations are made explicit: `max()` over an empty sequence and
  `list.pop` / `result[-1]` on out-of-range indices return `Except.error`
  carrying the Python exception text;
* `EnumSafeDict` — the type-partitioned mapping (`util.py`, lines 113–167).
  Python values usable as keys are modelled by `PyKey` together with
  Python's naive equality `pyEq` (under which `1 == True`) and the runtime
  type `ptype`; the two nested `dict`s are modelled as association lists.

Python strings are Lean `String`s; `len`, slicing, `ljust`, `join` and
`%`-formatting are translated char-list-wise so that everything reduces in
the kernel.  `sorted` on strings is translated as a stable insertion sort
under code-point lexicographic order, which is Python's string ordering.
-/

/-- Python `''.join(...)` / concatenation of a list of string fragments. -/
def pyJoin : List String → String
  | [] => ""
  | s :: rest => s ++ pyJoin rest

/-- Python `c * n` for a single character `c`: a string of `n` copies. -/
def mkStr (n : Nat) (c : Char) : String :=
  String.mk (List.replicate n c)

/-- Python `s.ljust(width, pad)`: left-justify `s` to `width` using `pad`. -/
def ljust (s : String) (width : Nat) (pad : Char) : String :=
  s ++ mkStr (width - s.length) pad

/-- Python `s[:-1]`: drop the final character (empty string stays empty). -/
def dropLastChar (s : String) : String :=
  String.mk s.data.dropLast

/-- Code-point lexicographic `<=` on char lists: Python's string ordering. -/
def pyStrLeList : List Char → List Char → Bool
  | [], _ => true
  | _ :: _, [] => false
  | a :: as, b :: bs =>
    if a.toNat < b.toNat then true
    else if b.toNat < a.toNat then false
    else pyStrLeList as bs

/-- Python `s1 <= s2` on strings. -/
def pyStrLe (a b : String) : Bool :=
  pyStrLeList a.data b.data

/-- Insert into a sorted list, before the first element it is `le` to. -/
def insSorted (le : String → String → Bool) (x : String) : List String → List String
  | [] => [x]
  | y :: ys => if le x y then x :: y :: ys else y :: insSorted le x ys

/-- Stable insertion sort; models Python `sorted` on a list of strings. -/
def insSort (le : String → String → Bool) : List String → List String
  | [] => []
  | x :: xs => insSorted le x (insSort le xs)

/-- Python `l.pop(i)` for `0 <= i`: the popped element and the remaining
list, or `none` when `i` is out of range (Python raises `IndexError`). -/
def listPop {α : Type} (l : List α) (i : Nat) : Option (α × List α) :=
  match l[i]? with
  | none => none
  | some a => some (a, l.take i ++ l.drop (i + 1))

/-- Python `max(iterable)` over naturals: `ValueError` on an empty
sequence, otherwise a left fold of binary `max` over the elements. -/
def pyMax : List Nat → Except String Nat
  | [] => Except.error "ValueError: max() arg is an empty sequence"
  | n :: rest => Except.ok (rest.foldl Nat.max n)

/-- Lengths of the cells at position `pos`, taken over exactly those rows
having more than `pos` cells (`len(x[pos]) for x in rows if len(x) > pos`,
`util.py` line 83). -/
def colCells (rows : List (List String)) (pos : Nat) : List Nat :=
  (rows.filter (fun x => decide (pos < x.length))).map (fun x => (x.getD pos "").length)

/-- The column-width loop body of `fmt_table` (`util.py` lines 81–84),
recursing over the headers with the current position. -/
def col_maxlens_go (rows : List (List String)) (pos : Nat) : List String → Except String (List Nat)
  | [] => Except.ok []
  | h :: hs =>
    match pyMax (colCells rows pos) with
    | Except.error e => Except.error e
    | Except.ok maxlen =>
      match col_maxlens_go rows (pos + 1) hs with
      | Except.error e => Except.error e
      | Except.ok ws => Except.ok (Nat.max maxlen h.length :: ws)

/-- Column widths of `fmt_table`: for each header position the maximum of
the header length and the cell lengths at that position (`util.py` lines
81–84); `Except.error` when some column has no contributing row. -/
def col_maxlens (rows : List (List String)) (headers : List String) : Except String (List Nat) :=
  col_maxlens_go rows 0 headers

/-- The fragment list built by `fmt_row`'s cell loop (`util.py` lines
88–90): one `'%s%s ' % (' ' * indent, label.ljust(width, pad))` fragment
per `zip(col_maxlens, row)` pair. -/
def rowPieces (col_maxlens : List Nat) (row : List String) (pad : Char) (indent : Nat) :
    List String :=
  (List.zip col_maxlens row).map (fun p => mkStr indent ' ' ++ ljust p.2 p.1 pad ++ " ")

/-- The nested `fmt_row` helper of `fmt_table` (`util.py` lines 86–98):
renders one row as the list of fragments appended to `result`; when the
natural width is below `min_width` the last fragment loses its final
character and a run of `pad` characters is appended; `result[-1]` on an
empty fragment list is Python's `IndexError`. -/
def fmt_row (col_maxlens : List Nat) (row : List String) (pad : Char) (indent : Nat)
    (min_width : Nat) : Except String (List String) :=
  let result := rowPieces col_maxlens row pad indent
  let w := (result.map String.length).sum
  if w < min_width then
    match result.getLast? with
    | none => Except.error "IndexError: list assignment index out of range"
    | some last =>
      Except.ok (result.dropLast ++ [dropLastChar last] ++ [mkStr (min_width - w + 1) pad] ++ ["\n"])
  else
    Except.ok (result ++ ["\n"])

/-- One step of `groups.setdefault(group, []).append(row)` (`util.py`
line 76) on an association-list model of the `groups` dict. -/
def addToGroup (gs : List (String × List (List String))) (k : String) (r : List String) :
    List (String × List (List String)) :=
  match gs with
  | [] => [(k, [r])]
  | (k', rs) :: rest =>
    if k' = k then (k', rs ++ [r]) :: rest else (k', rs) :: addToGroup rest k r

/-- The grouping loop of `fmt_table` (`util.py` lines 74–76) applied to the
already-popped `(group, row)` pairs. -/
def buildGroups (keyed : List (String × List String)) : List (String × List (List String)) :=
  keyed.foldl (fun gs cr => addToGroup gs cr.1 cr.2) []

/-- Lookup `groups[group]` in the association-list model of the dict. -/
def lookupGroup (gs : List (String × List (List String))) (k : String) : List (List String) :=
  match gs with
  | [] => []
  | (k', rs) :: rest => if k' = k then rs else lookupGroup rest k

/-- Popping the `group_by` column from every row (`util.py` lines 73–75):
the `(group, trimmed row)` pairs, or the `IndexError` of the first row that
is too short. -/
def popRows (g : Nat) : List (List String) → Except String (List (String × List String))
  | [] => Except.ok []
  | row :: rest =>
    match listPop row g with
    | none => Except.error "IndexError: pop index out of range"
    | some (c, r) =>
      match popRows g rest with
      | Except.error e => Except.error e
      | Except.ok rs => Except.ok ((c, r) :: rs)

/-- Renders the rows of one group, each via `fmt_row(row, indent=1)`
(`util.py` lines 108–109), concatenated. -/
def renderGroupRows (ws : List Nat) : List (List String) → Except String String
  | [] => Except.ok ""
  | r :: rs =>
    match fmt_row ws r ' ' 1 0 with
    | Except.error e => Except.error e
    | Except.ok segs =>
      match renderGroupRows ws rs with
      | Except.error e => Except.error e
      | Except.ok s => Except.ok (pyJoin segs ++ s)

/-- The body loop of `fmt_table` (`util.py` lines 105–109): for each group
key in the given order, a `"\n" ++ key ++ "\n"` label when the key is
non-empty, then the group's rows. -/
def renderBody (ws : List Nat) (groups : List (String × List (List String))) :
    List String → Except String String
  | [] => Except.ok ""
  | k :: ks =>
    match renderGroupRows ws (lookupGroup groups k) with
    | Except.error e => Except.error e
    | Except.ok s =>
      match renderBody ws groups ks with
      | Except.error e => Except.error e
      | Except.ok rest =>
        Except.ok ((if k = "" then "" else "\n" ++ k ++ "\n") ++ s ++ rest)

/-- The common tail of `fmt_table` (`util.py` lines 80–111) once the
groups are built: column widths, header row, divider row with pad `'-'`
and `min_width = max(len(x) for x in groups) + 1`, then the body over the
sorted group keys. -/
def fmt_core (rows : List (List String)) (headers : List String)
    (groups : List (String × List (List String))) : Except String String :=
  match col_maxlens rows headers with
  | Except.error e => Except.error e
  | Except.ok ws =>
    match pyMax (groups.map (fun p => p.1.length)) with
    | Except.error e => Except.error e
    | Except.ok group_width =>
      match fmt_row ws headers ' ' 0 0 with
      | Except.error e => Except.error e
      | Except.ok hsegs =>
        match fmt_row ws (List.replicate headers.length "") '-' 0 (group_width + 1) with
        | Except.error e => Except.error e
        | Except.ok dsegs =>
          match renderBody ws groups (insSort pyStrLe (groups.map Prod.fst)) with
          | Except.error e => Except.error e
          | Except.ok body => Except.ok (pyJoin hsegs ++ pyJoin dsegs ++ body)

/-- The table formatter `fmt_table(rows, headers, group_by)` (`util.py`
lines 47–111) for `rows` given as a sequence of rows.  With `group_by`
present, the column at that index is popped from a copy of `headers` and
from a copy of every row and the popped cell keys the `groups` dict;
otherwise all rows form the single group keyed by `''`. -/
def fmt_table (rows : List (List String)) (headers : List String) (group_by : Option Nat) :
    Except String String :=
  match group_by with
  | none => fmt_core rows headers [("", rows)]
  | some g =>
    match listPop headers g with
    | none => Except.error "IndexError: pop index out of range"
    | some (_, headers') =>
      match popRows g rows with
      | Except.error e => Except.error e
      | Except.ok keyed => fmt_core (keyed.map Prod.snd) headers' (buildGroups keyed)

/-- Group keys in order of first occurrence: the key list of a dict grown
by `setdefault`. -/
def distinctKeys : List String → List String
  | [] => []
  | k :: ks => k :: (distinctKeys ks).filter (fun k' => decide (k' ≠ k))

/-- Modelled from the spec: the grouping mapping described in §4.1 step 1,
"a mapping from group key to the ordered list of (possibly column-trimmed)
rows assigned to it, preserving each row's original relative order within
its group" — a stable partition, written directly as a filter over the
popped rows. -/
def specGroups (keyed : List (String × List String)) : List (String × List (List String)) :=
  (distinctKeys (keyed.map Prod.fst)).map
    (fun k => (k, (keyed.filter (fun cr => decide (cr.1 = k))).map Prod.snd))

/-- Modelled from the spec: `fmt_table` with grouping as §4.1 words it —
the group cell popped from copies of headers and rows, rows partitioned
stably by the popped key via `specGroups`, and the body iterating the keys
in ascending string order. -/
def fmt_table_spec (rows : List (List String)) (headers : List String) (g : Nat) :
    Except String String :=
  match listPop headers g with
  | none => Except.error "IndexError: pop index out of range"
  | some (_, headers') =>
    match popRows g rows with
    | Except.error e => Except.error e
    | Except.ok keyed => fmt_core (keyed.map Prod.snd) headers' (specGroups keyed)

/-- The index clamping helper `clamp_idx(idx, stop, wrap)` (`util.py`
lines 26–37).  Python `%` on integers with a positive modulus is the
Euclidean remainder, which is Lean's `Int.emod`. -/
def clamp_idx (idx stop : Int) (wrap : Bool) : Int :=
  if wrap then idx % stop else max (min idx (stop - 1)) 0

/-- Python `s.split(chr(10))` restricted to what the statements below need:
the lines of `s`, splitting at every newline character. -/
def splitLinesAux : List Char → List Char → List String
  | [], acc => [String.mk acc.reverse]
  | c :: cs, acc =>
    if c = '\n' then String.mk acc.reverse :: splitLinesAux cs []
    else splitLinesAux cs (c :: acc)

/-- The lines of a string, in Python `s.split` style (a trailing newline
yields a final empty piece). -/
def pyLines (s : String) : List String :=
  splitLinesAux s.data []

/-- Runtime types of the Python values used as `EnumSafeDict` keys in the
statements below. -/
inductive PyType where
  | intT
  | boolT
  | strT
deriving DecidableEq

/-- Python values used as `EnumSafeDict` keys: `int`, `bool` and `str`
suffice to express every claim, `bool` and `int` being the canonical pair
of distinct runtime types whose values compare equal (`1 == True`). -/
inductive PyKey where
  | intK : Int → PyKey
  | boolK : Bool → PyKey
  | strK : String → PyKey
deriving DecidableEq

/-- The runtime type `type(key)` of a key. -/
def ptype : PyKey → PyType
  | PyKey.intK _ => PyType.intT
  | PyKey.boolK _ => PyType.boolT
  | PyKey.strK _ => PyType.strT

/-- The numeric value of a key when Python treats it as a number
(`True == 1`, `False == 0`). -/
def pyNum : PyKey → Option Int
  | PyKey.intK n => some n
  | PyKey.boolK b => some (if b then 1 else 0)
  | PyKey.strK _ => none

/-- Python `==` on the modelled key values: strings compare by content,
numbers (including `bool`) by numeric value, strings and numbers are never
equal. -/
def pyEq : PyKey → PyKey → Bool
  | PyKey.strK s, PyKey.strK t => decide (s = t)
  | PyKey.strK _, _ => false
  | _, PyKey.strK _ => false
  | a, b =>
    match pyNum a, pyNum b with
    | some m, some n => decide (m = n)
    | _, _ => false

/-- A partition of `EnumSafeDict._contents` (one inner `dict`), as an
association list in insertion order, looked up with Python `==`. -/
def dictFind? {V : Type} : List (PyKey × V) → PyKey → Option V
  | [], _ => none
  | (k', v') :: rest, k => if pyEq k' k then some v' else dictFind? rest k

/-- Python `section[key] = value` on a partition: overwrite the value of
the (unique) `==`-equal key in place, else append the new pair. -/
def dictSet {V : Type} : List (PyKey × V) → PyKey → V → List (PyKey × V)
  | [], k, v => [(k, v)]
  | (k', v') :: rest, k, v =>
    if pyEq k' k then (k', v) :: rest else (k', v') :: dictSet rest k v

/-- Python `del section[key]` on a partition: remove the first (unique)
`==`-equal entry. -/
def dictDel {V : Type} : List (PyKey × V) → PyKey → List (PyKey × V)
  | [], _ => []
  | (k', v') :: rest, k => if pyEq k' k then rest else (k', v') :: dictDel rest k

/-- The outer `_contents` dict of `EnumSafeDict`, keyed by runtime type. -/
def typeFind? {V : Type} : List (PyType × List (PyKey × V)) → PyType → Option (List (PyKey × V))
  | [], _ => none
  | (t, sec) :: rest, tk => if t = tk then some sec else typeFind? rest tk

/-- `EnumSafeDict.__setitem__` on `_contents`
(`self._contents.setdefault(ktype, {})[key] = value`, `util.py` line 160). -/
def setContents {V : Type} (k : PyKey) (v : V) :
    List (PyType × List (PyKey × V)) → List (PyType × List (PyKey × V))
  | [] => [(ptype k, [(k, v)])]
  | (t, sec) :: rest =>
    if t = ptype k then (t, dictSet sec k v) :: rest
    else (t, sec) :: setContents k v rest

/-- The mutation of `EnumSafeDict.__delitem__` on `_contents` when the key
is present (`util.py` lines 132–136): delete from the key's partition and
drop the partition if it became empty. -/
def delContents {V : Type} (k : PyKey) :
    List (PyType × List (PyKey × V)) → List (PyType × List (PyKey × V))
  | [] => []
  | (t, sec) :: rest =>
    if t = ptype k then
      (if (dictDel sec k).isEmpty then rest else (t, dictDel sec k) :: rest)
    else (t, sec) :: delContents k rest

/-- The state of an `EnumSafeDict` (`util.py` lines 113–167): the
`_contents` dict from runtime key-type to that type's partition. -/
structure EnumSafeDict (V : Type) where
  contents : List (PyType × List (PyKey × V))
deriving DecidableEq

/-- `EnumSafeDict.__contains__` (`util.py` lines 126–128):
`ktype in self._contents and key in self._contents[ktype]`. -/
def esd_contains {V : Type} (d : EnumSafeDict V) (k : PyKey) : Bool :=
  match typeFind? d.contents (ptype k) with
  | none => false
  | some sec => (dictFind? sec k).isSome

/-- `EnumSafeDict.__getitem__` (`util.py` lines 140–144): the stored value
if `key in self`, else `KeyError(key)`. -/
def esd_get {V : Type} (d : EnumSafeDict V) (k : PyKey) : Except PyKey V :=
  if esd_contains d k then
    match typeFind? d.contents (ptype k) with
    | none => Except.error k
    | some sec =>
      match dictFind? sec k with
      | none => Except.error k
      | some v => Except.ok v
  else Except.error k

/-- `EnumSafeDict.__setitem__` (`util.py` lines 158–160). -/
def esd_set {V : Type} (d : EnumSafeDict V) (k : PyKey) (v : V) : EnumSafeDict V :=
  ⟨setContents k v d.contents⟩

/-- `EnumSafeDict.__delitem__` (`util.py` lines 130–138): the raised
`KeyError` (if any) together with the state of the object after the call. -/
def esd_delitem {V : Type} (d : EnumSafeDict V) (k : PyKey) :
    Except PyKey Unit × EnumSafeDict V :=
  if esd_contains d k then (Except.ok (), ⟨delContents k d.contents⟩)
  else (Except.error k, d)

/-- `EnumSafeDict.__iter__` (`util.py` lines 146–149): every key of every
partition, in the traversal order of the association-list model. -/
def esd_iter {V : Type} (d : EnumSafeDict V) : List PyKey :=
  (d.contents.map (fun p => p.2.map Prod.fst)).flatten

/-- `EnumSafeDict.keys` (`util.py` lines 165–167): `list(self)`. -/
def esd_keys {V : Type} (d : EnumSafeDict V) : List PyKey :=
  esd_iter d

/-- `EnumSafeDict.__len__` (`util.py` lines 151–152): the length of
`_contents`, i.e. the number of partitions. -/
def esd_len {V : Type} (d : EnumSafeDict V) : Nat :=
  d.contents.length

/-- The list comprehension of `EnumSafeDict.iteritems`
(`[(key, self[key]) for key in self]`, `util.py` lines 162–163). -/
def esd_iteritems_go {V : Type} (d : EnumSafeDict V) : List PyKey → Except PyKey (List (PyKey × V))
  | [] => Except.ok []
  | k :: ks =>
    match esd_get d k with
    | Except.error e => Except.error e
    | Except.ok v =>
      match esd_iteritems_go d ks with
      | Except.error e => Except.error e
      | Except.ok ps => Except.ok ((k, v) :: ps)

/-- `EnumSafeDict.iteritems` (`util.py` lines 162–163). -/
def esd_iteritems {V : Type} (d : EnumSafeDict V) : Except PyKey (List (PyKey × V)) :=
  esd_iteritems_go d (esd_iter d)

/-- No two entries of a partition are `==`-equal (true of a Python dict). -/
def noDupKeys {V : Type} : List (PyKey × V) → Bool
  | [] => true
  | (k, _) :: rest => rest.all (fun kv => !(pyEq kv.1 k)) && noDupKeys rest

/-- Well-formedness of one partition of type `t`: non-empty, all keys of
runtime type `t`, no `==`-duplicate keys. -/
def secWF {V : Type} (t : PyType) (sec : List (PyKey × V)) : Bool :=
  !sec.isEmpty && sec.all (fun kv => decide (ptype kv.1 = t)) && noDupKeys sec

/-- No duplicate types among the outer dict's keys. -/
def noDupTypes : List PyType → Bool
  | [] => true
  | t :: rest => rest.all (fun t' => decide (t' ≠ t)) && noDupTypes rest

/-- Well-formedness of an `EnumSafeDict` state: distinct partition types,
and every partition well-formed (in particular non-empty). -/
def esd_wf {V : Type} (d : EnumSafeDict V) : Bool :=
  noDupTypes (d.contents.map Prod.fst) && d.contents.all (fun p => secWF p.1 p.2)

/-- States of `EnumSafeDict` reachable by construction (`__init__` makes
the empty state and then runs `__setitem__`), `__setitem__` and
`__delitem__` (both of its outcomes). -/
inductive EsdReachable {V : Type} : EnumSafeDict V → Prop where
  | empty : EsdReachable ⟨[]⟩
  | set : ∀ {d : EnumSafeDict V} (k : PyKey) (v : V),
      EsdReachable d → EsdReachable (esd_set d k v)
  | del : ∀ {d : EnumSafeDict V} (k : PyKey),
      EsdReachable d → EsdReachable (esd_delitem d k).2

/-- A heap of Python list objects holding rows/headers; a reference is an
index into the allocation list. -/
structure Store where
  mem : List (List String)

/-- Read the list object behind a reference. -/
def readRef (st : Store) (r : Nat) : List String :=
  st.mem.getD r []

/-- Allocate a fresh list object (Python `list(...)` copy): the new store
and the fresh reference. -/
def allocRef (st : Store) (v : List String) : Store × Nat :=
  (⟨st.mem ++ [v]⟩, st.mem.length)

/-- Overwrite the list object behind a reference (Python in-place
mutation such as `pop`). -/
def writeRef (st : Store) (r : Nat) (v : List String) : Store :=
  ⟨st.mem.set r v⟩

/-- `rows = [list(row) for row in rows]` (`util.py` line 73): allocate a
copy of every row object, returning the new store and the fresh
references in order. -/
def copyRows : Store → List Nat → Store × List Nat
  | st, [] => (st, [])
  | st, r :: rest =>
    let a := allocRef st (readRef st r)
    let res := copyRows a.1 rest
    (res.1, a.2 :: res.2)

/-- `groups.setdefault(group, []).append(row)` with rows as references. -/
def addToGroupR (gs : List (String × List Nat)) (k : String) (r : Nat) :
    List (String × List Nat) :=
  match gs with
  | [] => [(k, [r])]
  | (k', rs) :: rest =>
    if k' = k then (k', rs ++ [r]) :: rest else (k', rs) :: addToGroupR rest k r

/-- The grouping loop of `fmt_table` (`util.py` lines 74–76) over the heap:
`row.pop(group_by)` mutates each copied row object in place. -/
def groupLoop (g : Nat) : List Nat → Store → List (String × List Nat) →
    Store × Except String (List (String × List Nat))
  | [], st, gs => (st, Except.ok gs)
  | r :: rest, st, gs =>
    match listPop (readRef st r) g with
    | none => (st, Except.error "IndexError: pop index out of range")
    | some (c, rr) => groupLoop g rest (writeRef st r rr) (addToGroupR gs c r)

/-- The `groups` association built by the grouping loop when the row
objects live at the consecutive references `start, start+1, ...`: the
reference-level image of `buildGroups`. -/
def refGroups (gs : List (String × List Nat)) (start : Nat) :
    List (String × List String) → List (String × List Nat)
  | [] => gs
  | (c, _) :: rest => refGroups (addToGroupR gs c start) (start + 1) rest

/-- The tail of `fmt_table` over the heap once the headers copy at `h1`
has been popped: copy every row object, run the grouping loop (mutating
the copies in place), then compute the output by reading the final heap. -/
def fmt_table_heap_go (g : Nat) (st1 : Store) (h1 : Nat) (rowRefs : List Nat)
    (headers' : List String) : Except String String × Store :=
  let st2 := writeRef st1 h1 headers'
  let cp := copyRows st2 rowRefs
  let gl := groupLoop g cp.2 cp.1 []
  ((match gl.2 with
    | Except.error e => Except.error e
    | Except.ok groupRefs =>
      fmt_core (cp.2.map (readRef gl.1)) (readRef gl.1 h1)
        (groupRefs.map (fun p => (p.1, p.2.map (readRef gl.1))))), gl.1)

/-- `fmt_table` over the heap: the caller's rows are the list objects
behind `rowRefs` and its headers the object behind `headersRef`.  With
`group_by` set, the code first copies the headers object (`list(headers)`)
and pops the copy; without `group_by` nothing is allocated or written and
the output is computed from the values read out of the caller's objects.
The result is the formatted output (or error) with the final heap. -/
def fmt_table_heap (st : Store) (rowRefs : List Nat) (headersRef : Nat)
    (group_by : Option Nat) : Except String String × Store :=
  match group_by with
  | none =>
    (fmt_core (rowRefs.map (readRef st)) (readRef st headersRef)
      [("", rowRefs.map (readRef st))], st)
  | some g =>
    let a := allocRef st (readRef st headersRef)
    match listPop (readRef a.1 a.2) g with
    | none => (Except.error "IndexError: pop index out of range", a.1)
    | some pr => fmt_table_heap_go g a.1 a.2 rowRefs pr.2

theorem pyJoin_append (a b : List String) : pyJoin (a ++ b) = pyJoin a ++ pyJoin b := by
  induction a with
  | nil => simp [pyJoin, String.empty_append]
  | cons s rest ih => simp [pyJoin, ih, String.append_assoc]

theorem length_pyJoin (l : List String) : (pyJoin l).length = (l.map String.length).sum := by
  induction l with
  | nil => rfl
  | cons s rest ih => simp [pyJoin, String.length_append, ih]

theorem length_mkStr (n : Nat) (c : Char) : (mkStr n c).length = n := by
  have h : (mkStr n c).length = (List.replicate n c).length := rfl
  rw [h, List.length_replicate]

theorem length_ljust (s : String) (w : Nat) (pad : Char) :
    (ljust s w pad).length = Nat.max s.length w := by
  unfold ljust
  rw [String.length_append, length_mkStr]
  rcases Nat.le_total s.length w with h | h
  · have hmx : Nat.max s.length w = w := Nat.max_eq_right h
    rw [hmx]
    omega
  · have hmx : Nat.max s.length w = s.length := Nat.max_eq_left h
    rw [hmx]
    omega

theorem length_dropLastChar (s : String) : (dropLastChar s).length = s.length - 1 := by
  have h : (dropLastChar s).length = s.data.dropLast.length := rfl
  have h2 : s.length = s.data.length := rfl
  rw [h, List.length_dropLast, h2]

theorem getLast?_split {α : Type} :
    ∀ {l : List α} {a : α}, l.getLast? = some a → l.dropLast ++ [a] = l := by
  intro l
  induction l with
  | nil => intro a h; cases h
  | cons x xs ih =>
    intro a h
    cases xs with
    | nil =>
      have hx : a = x := by
        have : (some x : Option α) = some a := h
        exact (Option.some.inj this).symm
      rw [hx]
      rfl
    | cons y ys =>
      have h' : (y :: ys).getLast? = some a := h
      have hd : (x :: y :: ys).dropLast = x :: (y :: ys).dropLast := rfl
      rw [hd, List.cons_append, ih h']

theorem length_rowPieces (ws : List Nat) (row : List String) (pad : Char) (ind : Nat) :
    (rowPieces ws row pad ind).map String.length
      = (List.zip ws row).map (fun p => ind + (Nat.max p.2.length p.1 + 1)) := by
  unfold rowPieces
  generalize List.zip ws row = l
  induction l with
  | nil => rfl
  | cons a as ih =>
    simp only [List.map_cons, ih, List.cons.injEq, and_true]
    rw [String.length_append, String.length_append, length_mkStr, length_ljust, Nat.add_assoc]
    rfl

/-- C9: for `stop > 0`, `clamp_idx(idx, stop, wrap=True)` equals the Python
modulus `idx % stop` (Euclidean remainder) and lies in the half-open range
`[0, stop)`; `clamp_idx(idx, stop, wrap=False)` lies in `[0, stop-1]` and
equals `idx` whenever `idx` is already in that range. -/
theorem clamp_idx_spec (idx stop : Int) (h : 0 < stop) :
    (clamp_idx idx stop true = idx % stop ∧
      0 ≤ clamp_idx idx stop true ∧ clamp_idx idx stop true < stop) ∧
    (0 ≤ clamp_idx idx stop false ∧ clamp_idx idx stop false ≤ stop - 1 ∧
      (0 ≤ idx → idx ≤ stop - 1 → clamp_idx idx stop false = idx)) := by
  constructor
  · refine ⟨rfl, ?_, ?_⟩
    · exact Int.emod_nonneg idx (by omega)
    · exact Int.emod_lt_of_pos idx h
  · have hd : clamp_idx idx stop false = max (min idx (stop - 1)) 0 := rfl
    rw [hd]
    refine ⟨le_max_right _ _, max_le (min_le_right _ _) (by omega), ?_⟩
    · intro h0 h1
      rw [min_eq_left h1, max_eq_left h0]

/-- C9 witness: `clamp_idx(-7, 5)` wraps to `3` and saturation behaves on
the same range. -/
theorem clamp_idx_spec_witness :
    (0 : Int) < 5 ∧
    ((clamp_idx (-7) 5 true = -7 % 5 ∧
      0 ≤ clamp_idx (-7) 5 true ∧ clamp_idx (-7) 5 true < 5) ∧
    (0 ≤ clamp_idx (-7) 5 false ∧ clamp_idx (-7) 5 false ≤ 5 - 1 ∧
      (0 ≤ (-7 : Int) → (-7 : Int) ≤ 5 - 1 → clamp_idx (-7) 5 false = -7))) :=
  ⟨by decide, clamp_idx_spec (-7) 5 (by decide)⟩

theorem colCells_ne_nil {rows : List (List String)} {p : Nat}
    (h : ∃ r ∈ rows, p < r.length) : colCells rows p ≠ [] := by
  obtain ⟨r, hr, hp⟩ := h
  have hmem : r ∈ rows.filter (fun x => decide (p < x.length)) := by
    rw [List.mem_filter]
    exact ⟨hr, by simpa using hp⟩
  exact List.ne_nil_of_mem (List.mem_map_of_mem _ hmem)

theorem pyMax_spec {l : List Nat} (h : l ≠ []) :
    ∃ m, pyMax l = Except.ok m ∧ m ∈ l ∧ ∀ x ∈ l, x ≤ m := by
  have key : ∀ (rest : List Nat) (n : Nat),
      (rest.foldl Nat.max n = n ∨ rest.foldl Nat.max n ∈ rest) ∧
      n ≤ rest.foldl Nat.max n ∧ ∀ x ∈ rest, x ≤ rest.foldl Nat.max n := by
    intro rest
    induction rest with
    | nil => intro n; exact ⟨Or.inl rfl, le_refl n, by simp⟩
    | cons a as ih =>
      intro n
      obtain ⟨hmem, hle, hall⟩ := ih (Nat.max n a)
      have hfold : (a :: as).foldl Nat.max n = as.foldl Nat.max (Nat.max n a) := rfl
      refine ⟨?_, ?_, ?_⟩
      · rw [hfold]
        rcases hmem with h1 | h1
        · rcases Nat.le_total n a with h2 | h2
          · right
            have hmx : Nat.max n a = a := Nat.max_eq_right h2
            rw [h1, hmx]
            exact List.mem_cons_self a as
          · left
            rw [h1]
            exact Nat.max_eq_left h2
        · right
          exact List.mem_cons_of_mem a h1
      · rw [hfold]
        exact le_trans (Nat.le_max_left n a) hle
      · intro x hx
        rw [hfold]
        rcases List.mem_cons.mp hx with h1 | h1
        · subst h1
          exact le_trans (Nat.le_max_right n x) hle
        · exact hall x h1
  match l, h with
  | n :: rest, _ =>
    obtain ⟨hmem, hle, hall⟩ := key rest n
    refine ⟨rest.foldl Nat.max n, rfl, ?_, ?_⟩
    · rcases hmem with h1 | h1
      · rw [h1]; exact List.mem_cons_self n rest
      · exact List.mem_cons_of_mem n h1
    · intro x hx
      rcases List.mem_cons.mp hx with h1 | h1
      · subst h1; exact hle
      · exact hall x h1

theorem col_maxlens_go_char (rows : List (List String)) :
    ∀ (hs : List String) (pos : Nat),
    (∀ p, p < hs.length → ∃ r ∈ rows, pos + p < r.length) →
    ∃ ws, col_maxlens_go rows pos hs = Except.ok ws ∧ ws.length = hs.length ∧
      ∀ p, p < hs.length →
        ∃ m, m ∈ colCells rows (pos + p) ∧ (∀ x ∈ colCells rows (pos + p), x ≤ m) ∧
          ws.getD p 0 = Nat.max m (hs.getD p "").length := by
  intro hs
  induction hs with
  | nil =>
    intro pos _
    exact ⟨[], rfl, rfl, fun p hp => absurd hp (by simp)⟩
  | cons h hs ih =>
    intro pos hyp
    have h0 : ∃ r ∈ rows, pos < r.length := by
      have := hyp 0 (by simp)
      simpa using this
    obtain ⟨m, hm, hmem, hall⟩ := pyMax_spec (colCells_ne_nil h0)
    obtain ⟨ws, hws, hlen, hchar⟩ := ih (pos + 1) (fun p hp => by
      have hidx : pos + 1 + p = pos + (p + 1) := by omega
      rw [hidx]
      exact hyp (p + 1) (by simpa using Nat.succ_lt_succ hp))
    refine ⟨Nat.max m h.length :: ws, ?_, by simp [hlen], ?_⟩
    · simp only [col_maxlens_go, hm, hws]
    · intro p hp
      cases p with
      | zero => exact ⟨m, by simpa using hmem, by simpa using hall, by simp⟩
      | succ p =>
        obtain ⟨m', h1, h2, h3⟩ := hchar p (Nat.lt_of_succ_lt_succ hp)
        have hidx : pos + (p + 1) = pos + 1 + p := by omega
        rw [hidx]
        exact ⟨m', h1, h2, by simpa using h3⟩

/-- C1 (amended): whenever every header position has at least one row with
more than that many cells, the column-width computation of `fmt_table`
succeeds and `width[p]` is the maximum of the header's length and the
largest cell length at position `p` over exactly those rows having more
than `p` cells; rows shorter than `p+1` contribute nothing (they are
filtered out of `colCells`).  When some column has no contributing row —
in particular when `rows` is empty — the computation instead fails with
Python's `ValueError` (see the counterexample). -/
theorem col_maxlens_char (rows : List (List String)) (headers : List String)
    (h : ∀ p, p < headers.length → ∃ r ∈ rows, p < r.length) :
    ∃ ws, col_maxlens rows headers = Except.ok ws ∧ ws.length = headers.length ∧
      ∀ p, p < headers.length →
        ∃ m, m ∈ colCells rows p ∧ (∀ x ∈ colCells rows p, x ≤ m) ∧
          ws.getD p 0 = Nat.max m (headers.getD p "").length := by
  have hh : ∀ p, p < headers.length → ∃ r ∈ rows, 0 + p < r.length := by
    intro p hp
    simpa using h p hp
  have := col_maxlens_go_char rows headers 0 hh
  simpa [col_maxlens] using this

/-- C1 witness: a heterogeneous pair of rows where every column has a
contributing row. -/
theorem col_maxlens_char_witness :
    (∀ p, p < (["H", "I"] : List String).length → ∃ r ∈ [["a"], ["bb", "c"]], p < r.length) ∧
    (∃ ws, col_maxlens [["a"], ["bb", "c"]] ["H", "I"] = Except.ok ws ∧
      ws.length = (["H", "I"] : List String).length ∧
      ∀ p, p < (["H", "I"] : List String).length →
        ∃ m, m ∈ colCells [["a"], ["bb", "c"]] p ∧
          (∀ x ∈ colCells [["a"], ["bb", "c"]] p, x ≤ m) ∧
          ws.getD p 0 = Nat.max m ((["H", "I"] : List String).getD p "").length) :=
  ⟨by decide, col_maxlens_char [["a"], ["bb", "c"]] ["H", "I"] (by decide)⟩

/-- C1 counterexample: with an empty rows sequence (so no row has more
than 0 cells) the width computation does not fall back to the header's
length — `max()` over an empty generator raises `ValueError`, and
`fmt_table` propagates it. -/
theorem fmt_table_widths_error_cex :
    fmt_table [] ["A"] none = Except.error "ValueError: max() arg is an empty sequence" ∧
    col_maxlens [] ["A"] = Except.error "ValueError: max() arg is an empty sequence" :=
  ⟨rfl, rfl⟩

/-- C2 counterexample: on `rows=[["a","1"],["b","2"]]`,
`headers=["Name","Val"]`, the actual output is not the output described by
the claim — the indent of 1 precedes *each cell* of a data row (giving
` a     1   `), not the row as a whole (which would give ` a    1   `). -/
theorem fmt_table_example_cex :
    fmt_table [["a", "1"], ["b", "2"]] ["Name", "Val"] none =
      Except.ok "Name Val \n---- --- \n a     1   \n b     2   \n" ∧
    "Name Val \n---- --- \n a     1   \n b     2   \n" ≠
      "Name Val \n---- --- \n a    1   \n b    2   \n" :=
  ⟨rfl, by decide⟩

/-- C2 (amended): the example produces the header line `Name Val ` (each
cell left-justified to its column width — 4 and 3 — and followed by one
separator space), a divider line `---- --- ` of dashes exactly as wide,
and data lines ` a     1   ` and ` b     2   ` in which the per-row indent
of 1 (headers indent 0) precedes every cell, each cell left-justified to
its column's width and followed by one separator space. -/
theorem fmt_table_example_exact :
    fmt_table [["a", "1"], ["b", "2"]] ["Name", "Val"] none =
      Except.ok "Name Val \n---- --- \n a     1   \n b     2   \n" ∧
    pyLines "Name Val \n---- --- \n a     1   \n b     2   \n" =
      ["Name Val ", "---- --- ", " a     1   ", " b     2   ", ""] ∧
    ("Name Val " : String).length = ("---- --- " : String).length :=
  ⟨rfl, rfl, rfl⟩

/-- C3 counterexample: with group key `group1` (length 6) the divider is
rendered with `min_width = 7` and the padded divider line is `-------` of
total width exactly `min_width = 7`, not `min_width + 1 = 8` as the claim
states. -/
theorem fmt_row_min_width_cex :
    fmt_table [["x", "group1"]] ["K", "G"] (some 1) =
      Except.ok "K \n-------\n\ngroup1\n x \n" ∧
    pyLines "K \n-------\n\ngroup1\n x \n" = ["K ", "-------", "", "group1", " x ", ""] ∧
    fmt_row [1] [""] '-' 0 (6 + 1) = Except.ok ["-", "------", "\n"] ∧
    pyJoin ["-", "------", "\n"] = "-------\n" ∧
    ("-------" : String).length = 6 + 1 ∧
    ("-------" : String).length ≠ 6 + 1 + 1 :=
  ⟨rfl, rfl, rfl, rfl, rfl, by decide⟩

/-- C3 (amended): a row rendered by `fmt_row` with a `min_width`
constraint (used only for the divider row, whose `min_width` is the
maximum group-key length plus one) always yields one line: when the
naturally rendered width is at least `min_width` the line keeps its
natural width, and otherwise the trailing separator is dropped and pad
characters are appended so that the line reaches total width exactly
`min_width` (not `min_width + 1`); in both cases the line's width is
`max(natural width, min_width)`, so the divider is never narrower than
the widest group label. -/
theorem fmt_row_min_width_char (ws : List Nat) (row : List String) (pad : Char) (mw : Nat)
    (h : rowPieces ws row pad 0 ≠ []) :
    ∃ segs line, fmt_row ws row pad 0 mw = Except.ok segs ∧
      pyJoin segs = line ++ "\n" ∧
      line.length = Nat.max ((rowPieces ws row pad 0).map String.length).sum mw := by
  set P := rowPieces ws row pad 0 with hP
  by_cases hlt : (P.map String.length).sum < mw
  · have hsome := List.getLast?_isSome.mpr h
    obtain ⟨last, hlast⟩ : ∃ a, P.getLast? = some a := by
      cases hp : P.getLast? with
      | some a => exact ⟨a, rfl⟩
      | none =>
        rw [hp] at hsome
        simp at hsome
    have hsplit : P.dropLast ++ [last] = P := getLast?_split hlast
    have hmem : last ∈ P := by
      rw [← hsplit]
      exact List.mem_append_right _ (by simp)
    have hL1 : 1 ≤ last.length := by
      have hmem' : last ∈ (List.zip ws row).map (fun p => mkStr 0 ' ' ++ ljust p.2 p.1 pad ++ " ") := by
        rw [hP] at hmem
        exact hmem
      obtain ⟨p, _, hpe⟩ := List.mem_map.mp hmem'
      have h1 : last.length = (mkStr 0 ' ' ++ ljust p.2 p.1 pad).length + (" " : String).length := by
        rw [← hpe, String.length_append]
      have h2 : (" " : String).length = 1 := rfl
      omega
    have hLle : last.length ≤ (P.map String.length).sum :=
      List.single_le_sum (fun x _ => Nat.zero_le x) _ (List.mem_map_of_mem String.length hmem)
    have hsum : (P.dropLast.map String.length).sum + last.length = (P.map String.length).sum := by
      conv_rhs => rw [← hsplit]
      rw [List.map_append, List.sum_append]
      simp
    refine ⟨P.dropLast ++ [dropLastChar last]
        ++ [mkStr (mw - (P.map String.length).sum + 1) pad] ++ ["\n"],
      pyJoin (P.dropLast ++ [dropLastChar last]
        ++ [mkStr (mw - (P.map String.length).sum + 1) pad]), ?_, ?_, ?_⟩
    · simp only [fmt_row, ← hP, if_pos hlt, hlast]
    · rw [pyJoin_append]
      simp [pyJoin, String.append_empty]
    · rw [length_pyJoin, List.map_append, List.map_append, List.sum_append, List.sum_append]
      have hmax : Nat.max ((P.map String.length).sum) mw = mw :=
        Nat.max_eq_right (Nat.le_of_lt hlt)
      rw [hmax]
      simp only [List.map_cons, List.map_nil, List.sum_cons, List.sum_nil,
        length_dropLastChar, length_mkStr]
      omega
  · refine ⟨P ++ ["\n"], pyJoin P, ?_, ?_, ?_⟩
    · simp only [fmt_row, ← hP, if_neg hlt]
    · rw [pyJoin_append]
      simp [pyJoin, String.append_empty]
    · rw [length_pyJoin]
      have hmax : Nat.max ((P.map String.length).sum) mw = (P.map String.length).sum :=
        Nat.max_eq_left (Nat.le_of_not_lt hlt)
      rw [hmax]

/-- C3 witness: the divider of the `group1` example — natural width 2,
`min_width` 7, final line `-------` ++ newline of width `max(2,7) = 7`. -/
theorem fmt_row_min_width_char_witness :
    rowPieces [1] [""] '-' 0 ≠ [] ∧
    (∃ segs line, fmt_row [1] [""] '-' 0 7 = Except.ok segs ∧
      pyJoin segs = line ++ "\n" ∧
      line.length = Nat.max ((rowPieces [1] [""] '-' 0).map String.length).sum 7) :=
  ⟨by decide, fmt_row_min_width_char [1] [""] '-' 7 (by decide)⟩

theorem mem_distinctKeys (a : String) : ∀ l : List String, a ∈ distinctKeys l ↔ a ∈ l := by
  intro l
  induction l with
  | nil => simp [distinctKeys]
  | cons k ks ih =>
    simp only [distinctKeys, List.mem_cons, List.mem_filter, ih, decide_eq_true_eq]
    constructor
    · rintro (h | ⟨h, _⟩)
      · exact Or.inl h
      · exact Or.inr h
    · rintro (h | h)
      · exact Or.inl h
      · by_cases hak : a = k
        · exact Or.inl hak
        · exact Or.inr ⟨h, hak⟩

theorem nodup_distinctKeys : ∀ l : List String, (distinctKeys l).Nodup := by
  intro l
  induction l with
  | nil => exact List.nodup_nil
  | cons k ks ih =>
    simp only [distinctKeys]
    refine List.nodup_cons.mpr ⟨?_, ih.filter _⟩
    intro hmem
    have := (List.mem_filter.mp hmem).2
    simp at this

theorem distinctKeys_append_singleton (k : String) :
    ∀ xs : List String, distinctKeys (xs ++ [k]) =
      if k ∈ xs then distinctKeys xs else distinctKeys xs ++ [k] := by
  intro xs
  induction xs with
  | nil => simp [distinctKeys]
  | cons x xs ih =>
    have hcons : distinctKeys ((x :: xs) ++ [k])
        = x :: (distinctKeys (xs ++ [k])).filter (fun k' => decide (k' ≠ x)) := rfl
    rw [hcons, ih]
    by_cases hk : k ∈ xs
    · rw [if_pos hk, if_pos (List.mem_cons_of_mem x hk)]
      rfl
    · rw [if_neg hk]
      by_cases hkx : k = x
      · rw [if_pos (by simp [hkx])]
        rw [List.filter_append]
        have hone : ([k].filter (fun k' => decide (k' ≠ x))) = [] := by simp [hkx]
        rw [hone, List.append_nil]
        rfl
      · rw [if_neg (by simp [hkx, hk])]
        rw [List.filter_append]
        have hone : ([k].filter (fun k' => decide (k' ≠ x))) = [k] := by simp [hkx]
        rw [hone]
        rfl

theorem map_pair_ite_eq (f : String → List (List String)) (r : List String) (d : String) :
    ∀ dk : List String, d ∉ dk →
      dk.map (fun k' => (k', f k' ++ if d = k' then [r] else [])) =
        dk.map (fun k' => (k', f k')) := by
  intro dk
  induction dk with
  | nil => intro _; rfl
  | cons a as ih =>
    intro hd
    have hne : d ≠ a := fun hc => hd (hc ▸ List.mem_cons_self a as)
    simp only [List.map_cons, if_neg hne, List.append_nil,
      ih (fun hc => hd (List.mem_cons_of_mem a hc))]

theorem addToGroup_map_mem (f : String → List (List String)) (k : String) (r : List String) :
    ∀ dk : List String, dk.Nodup → k ∈ dk →
      addToGroup (dk.map (fun k' => (k', f k'))) k r =
        dk.map (fun k' => (k', f k' ++ if k = k' then [r] else [])) := by
  intro dk
  induction dk with
  | nil => intro _ hk; cases hk
  | cons a as ih =>
    intro hnd hk
    by_cases hak : a = k
    · subst hak
      have ha : a ∉ as := (List.nodup_cons.mp hnd).1
      simp only [List.map_cons, addToGroup, if_pos rfl]
      rw [map_pair_ite_eq f r a as ha]
      simp
    · have hk' : k ∈ as := by
        rcases List.mem_cons.mp hk with h | h
        · exact absurd h.symm hak
        · exact h
      have hka : ¬ k = a := fun hc => hak hc.symm
      simp only [List.map_cons, addToGroup, if_neg hak, if_neg hka, List.append_nil]
      rw [ih (List.nodup_cons.mp hnd).2 hk']

theorem addToGroup_map_not_mem (f : String → List (List String)) (k : String) (r : List String) :
    ∀ dk : List String, k ∉ dk →
      addToGroup (dk.map (fun k' => (k', f k'))) k r =
        dk.map (fun k' => (k', f k')) ++ [(k, [r])] := by
  intro dk
  induction dk with
  | nil => intro _; rfl
  | cons a as ih =>
    intro hk
    have hak : ¬ a = k := fun hc => hk (hc ▸ List.mem_cons_self a as)
    simp only [List.map_cons, addToGroup, if_neg hak, List.cons_append]
    rw [ih (fun hc => hk (List.mem_cons_of_mem a hc))]

theorem filter_eq_nil_of_not_mem_keys (k : String) :
    ∀ pre : List (String × List String), k ∉ pre.map Prod.fst →
      pre.filter (fun cr => decide (cr.1 = k)) = [] := by
  intro pre
  induction pre with
  | nil => intro _; rfl
  | cons c cs ih =>
    intro hk
    have h1 : ¬ c.1 = k := by
      intro hc
      exact hk (by simp [List.map_cons, List.mem_cons, hc])
    rw [List.filter_cons, if_neg (by simpa using h1)]
    exact ih (fun hc => hk (List.mem_cons_of_mem _ hc))

theorem specGroups_snoc (pre : List (String × List String)) (k : String) (r : List String) :
    specGroups (pre ++ [(k, r)]) = addToGroup (specGroups pre) k r := by
  unfold specGroups
  have hfun : ∀ k' : String,
      ((pre ++ [(k, r)]).filter (fun cr => decide (cr.1 = k'))).map Prod.snd
        = (pre.filter (fun cr => decide (cr.1 = k'))).map Prod.snd
            ++ if k = k' then [r] else [] := by
    intro k'
    rw [List.filter_append]
    by_cases hkk : k = k'
    · have hone : ([(k, r)].filter (fun cr => decide (cr.1 = k'))) = [(k, r)] := by simp [hkk]
      rw [hone, List.map_append, if_pos hkk]
      rfl
    · have hone : ([(k, r)].filter (fun cr => decide (cr.1 = k'))) = [] := by simp [hkk]
      rw [hone, List.append_nil, if_neg hkk, List.append_nil]
  have hkeys : (pre ++ [(k, r)]).map Prod.fst = pre.map Prod.fst ++ [k] := by simp
  rw [hkeys, distinctKeys_append_singleton]
  simp only [hfun]
  by_cases hk : k ∈ pre.map Prod.fst
  · rw [if_pos hk]
    rw [addToGroup_map_mem (fun k' => (pre.filter (fun cr => decide (cr.1 = k'))).map Prod.snd)
      k r (distinctKeys (pre.map Prod.fst)) (nodup_distinctKeys _)
      ((mem_distinctKeys k _).mpr hk)]
  · rw [if_neg hk]
    have hnotin : k ∉ distinctKeys (pre.map Prod.fst) :=
      fun hc => hk ((mem_distinctKeys k _).mp hc)
    rw [addToGroup_map_not_mem (fun k' => (pre.filter (fun cr => decide (cr.1 = k'))).map Prod.snd)
      k r (distinctKeys (pre.map Prod.fst)) hnotin]
    rw [List.map_append]
    congr 1
    · exact map_pair_ite_eq _ r k _ hnotin
    · have hnil := filter_eq_nil_of_not_mem_keys k pre hk
      simp [hnil]

theorem buildGroups_eq_specGroups (keyed : List (String × List String)) :
    buildGroups keyed = specGroups keyed := by
  have key : ∀ (l pre : List (String × List String)),
      l.foldl (fun gs cr => addToGroup gs cr.1 cr.2) (specGroups pre) = specGroups (pre ++ l) := by
    intro l
    induction l with
    | nil => intro pre; simp
    | cons c cs ih =>
      intro pre
      have h1 : (c :: cs).foldl (fun gs cr => addToGroup gs cr.1 cr.2) (specGroups pre)
          = cs.foldl (fun gs cr => addToGroup gs cr.1 cr.2) (addToGroup (specGroups pre) c.1 c.2) :=
        rfl
      rw [h1, ← specGroups_snoc pre c.1 c.2, ih]
      congr 1
      rw [List.append_assoc]
      rfl
  calc buildGroups keyed = keyed.foldl (fun gs cr => addToGroup gs cr.1 cr.2) (specGroups []) := rfl
    _ = specGroups ([] ++ keyed) := key keyed []
    _ = specGroups keyed := by rw [List.nil_append]

theorem pyStrLeList_total : ∀ a b : List Char, pyStrLeList a b = true ∨ pyStrLeList b a = true := by
  intro a
  induction a with
  | nil => intro b; left; rfl
  | cons x xs ih =>
    intro b
    cases b with
    | nil => right; rfl
    | cons y ys =>
      by_cases h1 : x.toNat < y.toNat
      · left
        simp [pyStrLeList, h1]
      · by_cases h2 : y.toNat < x.toNat
        · right
          simp [pyStrLeList, h2]
        · rcases ih ys with h | h
          · left
            simp [pyStrLeList, h1, h2, h]
          · right
            simp [pyStrLeList, h1, h2, h]

theorem pyStrLeList_trans :
    ∀ a b c : List Char, pyStrLeList a b = true → pyStrLeList b c = true →
      pyStrLeList a c = true := by
  intro a
  induction a with
  | nil => intro b c _ _; rfl
  | cons x xs ih =>
    intro b c hab hbc
    cases b with
    | nil => simp [pyStrLeList] at hab
    | cons y ys =>
      cases c with
      | nil => simp [pyStrLeList] at hbc
      | cons z zs =>
        simp only [pyStrLeList] at hab hbc ⊢
        by_cases hxy : x.toNat < y.toNat
        · by_cases hyz : y.toNat < z.toNat
          · have hxz : x.toNat < z.toNat := by omega
            simp [hxz]
          · by_cases hzy : z.toNat < y.toNat
            · rw [if_neg hyz, if_pos hzy] at hbc
              simp at hbc
            · have hxz : x.toNat < z.toNat := by omega
              simp [hxz]
        · by_cases hyx : y.toNat < x.toNat
          · rw [if_neg hxy, if_pos hyx] at hab
            simp at hab
          · rw [if_neg hxy, if_neg hyx] at hab
            by_cases hyz : y.toNat < z.toNat
            · have hxz : x.toNat < z.toNat := by omega
              simp [hxz]
            · by_cases hzy : z.toNat < y.toNat
              · rw [if_neg hyz, if_pos hzy] at hbc
                simp at hbc
              · rw [if_neg hyz, if_neg hzy] at hbc
                have hxz : ¬ x.toNat < z.toNat := by omega
                have hzx : ¬ z.toNat < x.toNat := by omega
                rw [if_neg hxz, if_neg hzx]
                exact ih ys zs hab hbc

theorem pyStrLe_total (a b : String) : pyStrLe a b = true ∨ pyStrLe b a = true :=
  pyStrLeList_total a.data b.data

theorem pyStrLe_trans (a b c : String) (h1 : pyStrLe a b = true) (h2 : pyStrLe b c = true) :
    pyStrLe a c = true :=
  pyStrLeList_trans a.data b.data c.data h1 h2

theorem mem_insSorted (le : String → String → Bool) (x a : String) :
    ∀ l : List String, a ∈ insSorted le x l ↔ a = x ∨ a ∈ l := by
  intro l
  induction l with
  | nil => simp [insSorted]
  | cons y ys ih =>
    by_cases hxy : le x y = true
    · simp only [insSorted, if_pos hxy, List.mem_cons]
    · simp only [insSorted, if_neg hxy, List.mem_cons, ih]
      tauto

theorem insSorted_pairwise (x : String) :
    ∀ l : List String, l.Pairwise (fun a b => pyStrLe a b = true) →
      (insSorted pyStrLe x l).Pairwise (fun a b => pyStrLe a b = true) := by
  intro l
  induction l with
  | nil => intro _; simp [insSorted]
  | cons y ys ih =>
    intro hp
    obtain ⟨hy, hys⟩ := List.pairwise_cons.mp hp
    by_cases hxy : pyStrLe x y = true
    · rw [insSorted, if_pos hxy]
      refine List.pairwise_cons.mpr ⟨?_, hp⟩
      intro b hb
      rcases List.mem_cons.mp hb with h | h
      · rw [h]
        exact hxy
      · exact pyStrLe_trans x y b hxy (hy b h)
    · rw [insSorted, if_neg hxy]
      refine List.pairwise_cons.mpr ⟨?_, ih hys⟩
      intro b hb
      rcases (mem_insSorted pyStrLe x b ys).mp hb with h | h
      · subst h
        rcases pyStrLe_total b y with h1 | h1
        · exact absurd h1 hxy
        · exact h1
      · exact hy b h

theorem insSort_pairwise :
    ∀ l : List String, (insSort pyStrLe l).Pairwise (fun a b => pyStrLe a b = true) := by
  intro l
  induction l with
  | nil => simp [insSort]
  | cons x xs ih => exact insSorted_pairwise x (insSort pyStrLe xs) ih

theorem insSorted_perm (le : String → String → Bool) (x : String) :
    ∀ l : List String, (insSorted le x l).Perm (x :: l) := by
  intro l
  induction l with
  | nil => exact List.Perm.refl _
  | cons y ys ih =>
    by_cases hxy : le x y = true
    · rw [insSorted, if_pos hxy]
    · rw [insSorted, if_neg hxy]
      exact List.Perm.trans (ih.cons y) (List.Perm.swap x y ys)

theorem insSort_perm (le : String → String → Bool) :
    ∀ l : List String, (insSort le l).Perm l := by
  intro l
  induction l with
  | nil => exact List.Perm.refl _
  | cons x xs ih => exact List.Perm.trans (insSorted_perm le x (insSort le xs)) (ih.cons x)

theorem pyStrLe_nil_right : ∀ s : String, pyStrLe s "" = true → s = "" := by
  intro s h
  cases s with
  | mk data =>
    cases data with
    | nil => rfl
    | cons c cs => simp [pyStrLe, pyStrLeList] at h

theorem insSort_head_empty (l : List String) (hm : "" ∈ l) :
    (insSort pyStrLe l).head? = some "" := by
  have hs := insSort_pairwise l
  have hmem : "" ∈ insSort pyStrLe l := (insSort_perm pyStrLe l).mem_iff.mpr hm
  cases hcase : insSort pyStrLe l with
  | nil =>
    rw [hcase] at hmem
    cases hmem
  | cons h t =>
    rw [hcase] at hmem hs
    rcases List.mem_cons.mp hmem with he | he
    · rw [← he]
      rfl
    · have hle := (List.pairwise_cons.mp hs).1 "" he
      have hh := pyStrLe_nil_right h hle
      rw [hh]
      rfl

/-- C4: for an in-range `group_by`, `fmt_table` agrees with the spec's
description of grouping: each row goes to the group named by its cell at
the `group_by` index (that cell removed from the row and the label removed
from the headers before width computation and rendering), rows keep their
original relative order within a group (`specGroups` is a stable filter
partition), group blocks are iterated in ascending string order
(`insSort pyStrLe`, under which the empty key sorts first — see
`insSort_pairwise`, `insSort_head_empty`), and a non-empty key emits
a blank line, the bare label and a newline before its rows while the empty
key emits no label. -/
theorem fmt_table_grouping (rows : List (List String)) (headers : List String) (g : Nat)
    (hg : g < headers.length) (hr : ∀ r ∈ rows, g < r.length) :
    fmt_table rows headers (some g) = fmt_table_spec rows headers g := by
  have hL : fmt_table rows headers (some g) =
      (match listPop headers g with
      | none => Except.error "IndexError: pop index out of range"
      | some (_, headers') =>
        match popRows g rows with
        | Except.error e => Except.error e
        | Except.ok keyed => fmt_core (keyed.map Prod.snd) headers' (buildGroups keyed)) := rfl
  rw [hL]
  unfold fmt_table_spec
  cases hpop : listPop headers g with
  | none => rfl
  | some pr =>
    obtain ⟨c, headers'⟩ := pr
    cases hrows : popRows g rows with
    | error e => rfl
    | ok keyed =>
      show fmt_core (keyed.map Prod.snd) headers' (buildGroups keyed)
          = fmt_core (keyed.map Prod.snd) headers' (specGroups keyed)
      rw [buildGroups_eq_specGroups]

/-- C4 witness: two rows grouped by the middle column; the blocks come out
in `g1`, `g2` order (not insertion order). -/
theorem fmt_table_grouping_witness :
    (1 < (["K", "G", "V"] : List String).length) ∧
    fmt_table [["x", "g2", "1"], ["y", "g1", "2"]] ["K", "G", "V"] (some 1) =
      fmt_table_spec [["x", "g2", "1"], ["y", "g1", "2"]] ["K", "G", "V"] 1 :=
  ⟨by decide, fmt_table_grouping [["x", "g2", "1"], ["y", "g1", "2"]] ["K", "G", "V"] 1
    (by decide) (by decide)⟩

theorem pyEq_refl (k : PyKey) : pyEq k k = true := by
  cases k <;> simp [pyEq, pyNum]

theorem pyEq_symm (a b : PyKey) : pyEq a b = pyEq b a := by
  cases a <;> cases b <;> simp [pyEq, pyNum, eq_comm]

theorem pyEq_trans (a b c : PyKey) (hab : pyEq a b = true) (hbc : pyEq b c = true) :
    pyEq a c = true := by
  cases a <;> cases b <;> cases c <;> simp_all [pyEq, pyNum]

theorem pyEq_same_type : ∀ {a b : PyKey}, ptype a = ptype b → (pyEq a b = true ↔ a = b) := by
  intro a b h
  cases a with
  | intK m =>
    cases b with
    | intK n => simp [pyEq, pyNum]
    | boolK y => simp [ptype] at h
    | strK t => simp [ptype] at h
  | boolK x =>
    cases b with
    | intK n => simp [ptype] at h
    | boolK y => cases x <;> cases y <;> decide
    | strK t => simp [ptype] at h
  | strK s =>
    cases b with
    | intK n => simp [ptype] at h
    | boolK y => simp [ptype] at h
    | strK t => simp [pyEq]

theorem dictFind?_dictSet_self {V : Type} (k : PyKey) (v : V) :
    ∀ sec : List (PyKey × V), dictFind? (dictSet sec k v) k = some v := by
  intro sec
  induction sec with
  | nil => simp [dictSet, dictFind?, pyEq_refl]
  | cons e rest ih =>
    obtain ⟨k', v'⟩ := e
    by_cases h : pyEq k' k = true
    · simp [dictSet, dictFind?, h]
    · simp [dictSet, dictFind?, h, ih]

theorem typeFind?_setContents_self {V : Type} (k : PyKey) (v : V) :
    ∀ cont : List (PyType × List (PyKey × V)),
      typeFind? (setContents k v cont) (ptype k) =
        some (dictSet (match typeFind? cont (ptype k) with
                       | none => []
                       | some s => s) k v) := by
  intro cont
  induction cont with
  | nil => simp [setContents, typeFind?, dictSet]
  | cons p rest ih =>
    obtain ⟨t, sec⟩ := p
    by_cases h : t = ptype k
    · subst h
      simp [setContents, typeFind?]
    · simp [setContents, typeFind?, h, ih]

theorem typeFind?_setContents_other {V : Type} (k : PyKey) (v : V) (t : PyType)
    (ht : t ≠ ptype k) :
    ∀ cont : List (PyType × List (PyKey × V)),
      typeFind? (setContents k v cont) t = typeFind? cont t := by
  have hne : ¬ ptype k = t := fun hc => ht hc.symm
  intro cont
  induction cont with
  | nil => simp [setContents, typeFind?, hne]
  | cons p rest ih =>
    obtain ⟨t', sec⟩ := p
    by_cases h : t' = ptype k
    · subst h
      simp [setContents, typeFind?, ih, hne]
    · simp [setContents, typeFind?, h, ih]

theorem esd_set_get_self {V : Type} (d : EnumSafeDict V) (k : PyKey) (v : V) :
    esd_get (esd_set d k v) k = Except.ok v ∧ esd_contains (esd_set d k v) k = true := by
  have hfind := typeFind?_setContents_self k v d.contents
  have hd := dictFind?_dictSet_self k v
    (match typeFind? d.contents (ptype k) with
     | none => []
     | some s => s)
  have hcont : esd_contains (esd_set d k v) k = true := by
    unfold esd_contains esd_set
    rw [hfind]
    simp [hd]
  refine ⟨?_, hcont⟩
  unfold esd_get
  rw [if_pos hcont]
  show (match typeFind? (setContents k v d.contents) (ptype k) with
        | none => Except.error k
        | some sec =>
          match dictFind? sec k with
          | none => Except.error k
          | some v => Except.ok v) = Except.ok v
  rw [hfind]
  simp [hd]

theorem esd_get_set_other {V : Type} (d : EnumSafeDict V) (k1 k2 : PyKey) (v2 : V)
    (hty : ptype k1 ≠ ptype k2) :
    esd_get (esd_set d k2 v2) k1 = esd_get d k1 ∧
      esd_contains (esd_set d k2 v2) k1 = esd_contains d k1 := by
  have hfind := typeFind?_setContents_other k2 v2 (ptype k1) hty d.contents
  have hc : esd_contains (esd_set d k2 v2) k1 = esd_contains d k1 := by
    unfold esd_contains esd_set
    rw [hfind]
  refine ⟨?_, hc⟩
  unfold esd_get
  rw [hc]
  have hcc : (esd_set d k2 v2).contents = setContents k2 v2 d.contents := rfl
  rw [hcc, hfind]

/-- C5: `EnumSafeDict` round-trip — immediately after `set(k, v)` both
`get(k) == v` and `contains(k)`; and type isolation — for keys of
different runtime types that compare equal under Python `==` (such as `1`
and `True`), setting both leaves two independent entries, each readable
under its own key. -/
theorem esd_roundtrip_isolation {V : Type} (d : EnumSafeDict V) (k k1 k2 : PyKey)
    (v v1 v2 : V) (hty : ptype k1 ≠ ptype k2) (heq : pyEq k1 k2 = true) :
    (esd_get (esd_set d k v) k = Except.ok v ∧ esd_contains (esd_set d k v) k = true) ∧
    (esd_get (esd_set (esd_set d k1 v1) k2 v2) k1 = Except.ok v1 ∧
      esd_get (esd_set (esd_set d k1 v1) k2 v2) k2 = Except.ok v2) := by
  refine ⟨esd_set_get_self d k v, ?_, (esd_set_get_self (esd_set d k1 v1) k2 v2).1⟩
  rw [(esd_get_set_other (esd_set d k1 v1) k1 k2 v2 hty).1]
  exact (esd_set_get_self d k1 v1).1

/-- C5 witness: the canonical colliding pair `1` and `True` stored in one
dict over string values. -/
theorem esd_roundtrip_isolation_witness :
    (ptype (PyKey.intK 1) ≠ ptype (PyKey.boolK true) ∧
      pyEq (PyKey.intK 1) (PyKey.boolK true) = true) ∧
    (esd_get (esd_set (EnumSafeDict.mk ([] : List (PyType × List (PyKey × String))))
        (PyKey.strK "k") "v") (PyKey.strK "k") = Except.ok "v" ∧
      esd_contains (esd_set (EnumSafeDict.mk ([] : List (PyType × List (PyKey × String))))
        (PyKey.strK "k") "v") (PyKey.strK "k") = true) ∧
    (esd_get (esd_set (esd_set (EnumSafeDict.mk ([] : List (PyType × List (PyKey × String))))
        (PyKey.intK 1) "a") (PyKey.boolK true) "b") (PyKey.intK 1) = Except.ok "a" ∧
      esd_get (esd_set (esd_set (EnumSafeDict.mk ([] : List (PyType × List (PyKey × String))))
        (PyKey.intK 1) "a") (PyKey.boolK true) "b") (PyKey.boolK true) = Except.ok "b") :=
  ⟨⟨by decide, by decide⟩,
    esd_roundtrip_isolation (EnumSafeDict.mk []) (PyKey.strK "k") (PyKey.intK 1)
      (PyKey.boolK true) "v" "a" "b" (by decide) (by decide)⟩

theorem isEmpty_true_iff {α : Type} : ∀ l : List α, l.isEmpty = true ↔ l = [] := by
  intro l
  cases l <;> simp

theorem dictFind?_eq_none_of_all {V : Type} (k : PyKey) :
    ∀ sec : List (PyKey × V), sec.all (fun kv => !(pyEq kv.1 k)) = true →
      dictFind? sec k = none := by
  intro sec
  induction sec with
  | nil => intro _; rfl
  | cons e rest ih =>
    intro hall
    obtain ⟨k', v'⟩ := e
    rw [List.all_cons, Bool.and_eq_true] at hall
    have h1 : pyEq k' k = false := by
      have := hall.1
      simp at this
      exact this
    simp only [dictFind?, h1]
    exact ih hall.2

theorem all_not_pyEq_dictSet {V : Type} (k k' : PyKey) (v : V) (hne : pyEq k' k = false) :
    ∀ rest : List (PyKey × V), rest.all (fun kv => !(pyEq kv.1 k')) = true →
      (dictSet rest k v).all (fun kv => !(pyEq kv.1 k')) = true := by
  intro rest
  induction rest with
  | nil =>
    intro _
    have : pyEq k k' = false := by rw [pyEq_symm]; exact hne
    simp [dictSet, this]
  | cons e tail ih =>
    intro hall
    obtain ⟨a, b⟩ := e
    rw [List.all_cons, Bool.and_eq_true] at hall
    by_cases h : pyEq a k = true
    · rw [show dictSet ((a, b) :: tail) k v = (a, v) :: tail from by simp [dictSet, h]]
      rw [List.all_cons, Bool.and_eq_true]
      exact ⟨hall.1, hall.2⟩
    · rw [show dictSet ((a, b) :: tail) k v = (a, b) :: dictSet tail k v from by simp [dictSet, h]]
      rw [List.all_cons, Bool.and_eq_true]
      exact ⟨hall.1, ih hall.2⟩

theorem noDupKeys_dictSet {V : Type} (k : PyKey) (v : V) :
    ∀ sec : List (PyKey × V), noDupKeys sec = true → noDupKeys (dictSet sec k v) = true := by
  intro sec
  induction sec with
  | nil => intro _; simp [dictSet, noDupKeys]
  | cons e rest ih =>
    intro hnd
    obtain ⟨a, b⟩ := e
    rw [noDupKeys, Bool.and_eq_true] at hnd
    by_cases h : pyEq a k = true
    · rw [show dictSet ((a, b) :: rest) k v = (a, v) :: rest from by simp [dictSet, h]]
      rw [noDupKeys, Bool.and_eq_true]
      exact ⟨hnd.1, hnd.2⟩
    · simp only [dictSet, h, if_false, noDupKeys, Bool.and_eq_true]
      have hak : pyEq k a = false := by
        rw [pyEq_symm]
        exact (Bool.not_eq_true _).mp h
      refine ⟨?_, ih hnd.2⟩
      exact all_not_pyEq_dictSet k a v (by rw [pyEq_symm] at hak; exact hak) rest hnd.1

theorem dictSet_all_type {V : Type} (k : PyKey) (v : V) (t : PyType) (hk : ptype k = t) :
    ∀ sec : List (PyKey × V), sec.all (fun kv => decide (ptype kv.1 = t)) = true →
      (dictSet sec k v).all (fun kv => decide (ptype kv.1 = t)) = true := by
  intro sec
  induction sec with
  | nil => intro _; simp [dictSet, hk]
  | cons e rest ih =>
    intro hall
    obtain ⟨a, b⟩ := e
    rw [List.all_cons, Bool.and_eq_true] at hall
    by_cases h : pyEq a k = true
    · rw [show dictSet ((a, b) :: rest) k v = (a, v) :: rest from by simp [dictSet, h]]
      rw [List.all_cons, Bool.and_eq_true]
      exact ⟨hall.1, hall.2⟩
    · rw [show dictSet ((a, b) :: rest) k v = (a, b) :: dictSet rest k v from by simp [dictSet, h]]
      rw [List.all_cons, Bool.and_eq_true]
      exact ⟨hall.1, ih hall.2⟩

theorem dictSet_ne_nil {V : Type} (k : PyKey) (v : V) :
    ∀ sec : List (PyKey × V), (dictSet sec k v).isEmpty = false := by
  intro sec
  cases sec with
  | nil => rfl
  | cons e rest =>
    obtain ⟨a, b⟩ := e
    by_cases h : pyEq a k = true
    · simp [dictSet, h]
    · simp [dictSet, h]

theorem secWF_dictSet {V : Type} (k : PyKey) (v : V) (t : PyType) (hk : ptype k = t)
    (sec : List (PyKey × V)) (hwf : secWF t sec = true) :
    secWF t (dictSet sec k v) = true := by
  rw [secWF, Bool.and_eq_true, Bool.and_eq_true] at hwf
  obtain ⟨⟨_, hty⟩, hnd⟩ := hwf
  rw [secWF, Bool.and_eq_true, Bool.and_eq_true]
  refine ⟨⟨?_, dictSet_all_type k v t hk sec hty⟩, noDupKeys_dictSet k v sec hnd⟩
  rw [dictSet_ne_nil]
  rfl

theorem noDupTypes_iff_nodup : ∀ l : List PyType, noDupTypes l = true ↔ l.Nodup := by
  intro l
  induction l with
  | nil => simp [noDupTypes]
  | cons t rest ih =>
    rw [noDupTypes, Bool.and_eq_true, List.nodup_cons, ih]
    constructor
    · rintro ⟨hall, hnd⟩
      refine ⟨?_, hnd⟩
      intro hmem
      have := List.all_eq_true.mp hall t hmem
      simp at this
    · rintro ⟨hmem, hnd⟩
      refine ⟨?_, hnd⟩
      rw [List.all_eq_true]
      intro t' ht'
      simp only [decide_eq_true_eq]
      intro hc
      exact hmem (hc ▸ ht')

theorem noDupTypes_append_singleton (t : PyType) :
    ∀ l : List PyType, noDupTypes l = true → t ∉ l → noDupTypes (l ++ [t]) = true := by
  intro l
  induction l with
  | nil => intro _ _; simp [noDupTypes]
  | cons a rest ih =>
    intro hnd hmem
    rw [noDupTypes, Bool.and_eq_true] at hnd
    rw [List.cons_append, noDupTypes, Bool.and_eq_true]
    refine ⟨?_, ih hnd.2 (fun hc => hmem (List.mem_cons_of_mem a hc))⟩
    rw [List.all_append, Bool.and_eq_true]
    refine ⟨hnd.1, ?_⟩
    have hta : t ≠ a := fun hc => hmem (hc ▸ List.mem_cons_self a rest)
    simp [hta]

theorem setContents_types {V : Type} (k : PyKey) (v : V) :
    ∀ cont : List (PyType × List (PyKey × V)),
      (setContents k v cont).map Prod.fst =
        if ptype k ∈ cont.map Prod.fst then cont.map Prod.fst
        else cont.map Prod.fst ++ [ptype k] := by
  intro cont
  induction cont with
  | nil => simp [setContents]
  | cons p rest ih =>
    obtain ⟨t, sec⟩ := p
    by_cases h : t = ptype k
    · subst h
      simp [setContents]
  /- the popped branch keeps the type list unchanged -/
    · have hne : ¬ (ptype k = t) := fun hc => h hc.symm
      simp only [setContents, if_neg h, List.map_cons, ih]
      by_cases hmem : ptype k ∈ rest.map Prod.fst
      · rw [if_pos hmem, if_pos (by simp [hmem])]
      · rw [if_neg hmem, if_neg (by simp [hne, hmem])]
        rfl

theorem setContents_all_wf {V : Type} (k : PyKey) (v : V) :
    ∀ cont : List (PyType × List (PyKey × V)),
      cont.all (fun p => secWF p.1 p.2) = true →
      (setContents k v cont).all (fun p => secWF p.1 p.2) = true := by
  intro cont
  induction cont with
  | nil =>
    intro _
    simp [setContents, secWF, noDupKeys, dictSet]
  | cons p rest ih =>
    intro hall
    obtain ⟨t, sec⟩ := p
    rw [List.all_cons, Bool.and_eq_true] at hall
    by_cases h : t = ptype k
    · subst h
      rw [show setContents k v ((ptype k, sec) :: rest) = (ptype k, dictSet sec k v) :: rest
        from by simp [setContents]]
      rw [List.all_cons, Bool.and_eq_true]
      exact ⟨secWF_dictSet k v (ptype k) rfl sec hall.1, hall.2⟩
    · simp only [setContents, if_neg h, List.all_cons, Bool.and_eq_true]
      exact ⟨hall.1, ih hall.2⟩

theorem esd_wf_set {V : Type} {d : EnumSafeDict V} (k : PyKey) (v : V)
    (hwf : esd_wf d = true) : esd_wf (esd_set d k v) = true := by
  rw [esd_wf, Bool.and_eq_true] at hwf
  rw [esd_wf, Bool.and_eq_true]
  have hc : (esd_set d k v).contents = setContents k v d.contents := rfl
  rw [hc, setContents_types]
  constructor
  · by_cases hmem : ptype k ∈ d.contents.map Prod.fst
    · rw [if_pos hmem]
      exact hwf.1
    · rw [if_neg hmem]
      exact noDupTypes_append_singleton (ptype k) _ hwf.1 hmem
  · exact setContents_all_wf k v d.contents hwf.2

theorem all_dictDel {V : Type} (k : PyKey) (P : PyKey × V → Bool) :
    ∀ sec : List (PyKey × V), sec.all P = true → (dictDel sec k).all P = true := by
  intro sec
  induction sec with
  | nil => intro _; rfl
  | cons e rest ih =>
    intro hall
    obtain ⟨a, b⟩ := e
    rw [List.all_cons, Bool.and_eq_true] at hall
    by_cases h : pyEq a k = true
    · rw [show dictDel ((a, b) :: rest) k = rest from by simp [dictDel, h]]
      exact hall.2
    · rw [show dictDel ((a, b) :: rest) k = (a, b) :: dictDel rest k from by simp [dictDel, h]]
      rw [List.all_cons, Bool.and_eq_true]
      exact ⟨hall.1, ih hall.2⟩

theorem noDupKeys_dictDel {V : Type} (k : PyKey) :
    ∀ sec : List (PyKey × V), noDupKeys sec = true → noDupKeys (dictDel sec k) = true := by
  intro sec
  induction sec with
  | nil => intro _; rfl
  | cons e rest ih =>
    intro hnd
    obtain ⟨a, b⟩ := e
    rw [noDupKeys, Bool.and_eq_true] at hnd
    by_cases h : pyEq a k = true
    · simp only [dictDel, h, if_true]
      exact hnd.2
    · simp only [dictDel, h, if_false, noDupKeys, Bool.and_eq_true]
      exact ⟨all_dictDel k _ rest hnd.1, ih hnd.2⟩

theorem delContents_types_sublist {V : Type} (k : PyKey) :
    ∀ cont : List (PyType × List (PyKey × V)),
      ((delContents k cont).map Prod.fst).Sublist (cont.map Prod.fst) := by
  intro cont
  induction cont with
  | nil => exact List.Sublist.refl _
  | cons p rest ih =>
    obtain ⟨t, sec⟩ := p
    by_cases h : t = ptype k
    · subst h
      by_cases hemp : (dictDel sec k).isEmpty = true
      · simp only [delContents, if_pos rfl, if_pos hemp, List.map_cons]
        exact List.Sublist.cons _ (List.Sublist.refl _)
      · simp only [delContents, if_pos rfl, if_neg hemp, List.map_cons]
        exact List.Sublist.cons₂ _ (List.Sublist.refl _)
    · simp only [delContents, if_neg h, List.map_cons]
      exact List.Sublist.cons₂ _ ih

theorem delContents_all_wf {V : Type} (k : PyKey) :
    ∀ cont : List (PyType × List (PyKey × V)),
      cont.all (fun p => secWF p.1 p.2) = true →
      (delContents k cont).all (fun p => secWF p.1 p.2) = true := by
  intro cont
  induction cont with
  | nil => intro _; rfl
  | cons p rest ih =>
    intro hall
    obtain ⟨t, sec⟩ := p
    rw [List.all_cons, Bool.and_eq_true] at hall
    by_cases h : t = ptype k
    · subst h
      by_cases hemp : (dictDel sec k).isEmpty = true
      · rw [show delContents k ((ptype k, sec) :: rest) = rest from by simp [delContents, hemp]]
        exact hall.2
      · rw [show delContents k ((ptype k, sec) :: rest) = (ptype k, dictDel sec k) :: rest
          from by simp [delContents, hemp]]
        rw [List.all_cons, Bool.and_eq_true]
        refine ⟨?_, hall.2⟩
        have hs := hall.1
        rw [secWF, Bool.and_eq_true, Bool.and_eq_true] at hs
        rw [secWF, Bool.and_eq_true, Bool.and_eq_true]
        refine ⟨⟨?_, all_dictDel k _ sec hs.1.2⟩, noDupKeys_dictDel k sec hs.2⟩
        have hemp' : (dictDel sec k).isEmpty = false := by
          cases hcase : (dictDel sec k).isEmpty
          · rfl
          · exact absurd hcase hemp
        rw [hemp']
        rfl
    · simp only [delContents, if_neg h, List.all_cons, Bool.and_eq_true]
      exact ⟨hall.1, ih hall.2⟩

theorem esd_wf_del {V : Type} {d : EnumSafeDict V} (k : PyKey)
    (hwf : esd_wf d = true) : esd_wf (esd_delitem d k).2 = true := by
  unfold esd_delitem
  by_cases hc : esd_contains d k = true
  · rw [if_pos hc]
    rw [esd_wf, Bool.and_eq_true] at hwf
    rw [esd_wf, Bool.and_eq_true]
    constructor
    · have hsub := delContents_types_sublist k d.contents
      have hnd := (noDupTypes_iff_nodup _).mp hwf.1
      exact (noDupTypes_iff_nodup _).mpr (hnd.sublist hsub)
    · exact delContents_all_wf k d.contents hwf.2
  · rw [if_neg hc]
    exact hwf

theorem esd_wf_empty {V : Type} : esd_wf (EnumSafeDict.mk ([] : List (PyType × List (PyKey × V)))) = true :=
  rfl

theorem reachable_wf {V : Type} {d : EnumSafeDict V} (h : EsdReachable d) :
    esd_wf d = true := by
  induction h with
  | empty => exact esd_wf_empty
  | set k v _ ih => exact esd_wf_set k v ih
  | del k _ ih => exact esd_wf_del k ih

/-- C6: in every state reachable by construction, `set` and `delete`,
every partition of the `EnumSafeDict` is non-empty (a partition is removed
the instant its last key is), the partition types are pairwise distinct,
and the reported size (`__len__`) is the number of partitions — the number
of distinct key types currently present, not the number of entries. -/
theorem esd_partitions_invariant {V : Type} (d : EnumSafeDict V) (h : EsdReachable d) :
    (∀ p ∈ d.contents, p.2 ≠ []) ∧
    (d.contents.map Prod.fst).Nodup ∧
    esd_len d = (d.contents.map Prod.fst).length := by
  have hwf := reachable_wf h
  rw [esd_wf, Bool.and_eq_true] at hwf
  obtain ⟨hnd, hall⟩ := hwf
  refine ⟨?_, (noDupTypes_iff_nodup _).mp hnd, by simp [esd_len]⟩
  intro p hp
  have hs := List.all_eq_true.mp hall p hp
  rw [secWF, Bool.and_eq_true, Bool.and_eq_true] at hs
  have hne := hs.1.1
  intro hcon
  rw [hcon] at hne
  simp at hne

/-- C6 witness: set `1` and `True` (two partitions), then delete `1` — its
`int` partition disappears with it, one `bool` partition of one entry
remains, and `__len__` reports 1. -/
theorem esd_partitions_invariant_witness :
    (∀ p ∈ ((esd_delitem (esd_set (esd_set
        (EnumSafeDict.mk ([] : List (PyType × List (PyKey × String))))
        (PyKey.intK 1) "a") (PyKey.boolK true) "b") (PyKey.intK 1)).2).contents, p.2 ≠ []) ∧
    (((esd_delitem (esd_set (esd_set
        (EnumSafeDict.mk ([] : List (PyType × List (PyKey × String))))
        (PyKey.intK 1) "a") (PyKey.boolK true) "b") (PyKey.intK 1)).2).contents.map
        Prod.fst).Nodup ∧
    esd_len ((esd_delitem (esd_set (esd_set
        (EnumSafeDict.mk ([] : List (PyType × List (PyKey × String))))
        (PyKey.intK 1) "a") (PyKey.boolK true) "b") (PyKey.intK 1)).2) =
      (((esd_delitem (esd_set (esd_set
        (EnumSafeDict.mk ([] : List (PyType × List (PyKey × String))))
        (PyKey.intK 1) "a") (PyKey.boolK true) "b") (PyKey.intK 1)).2).contents.map
        Prod.fst).length :=
  esd_partitions_invariant _
    (EsdReachable.del (PyKey.intK 1)
      (EsdReachable.set (PyKey.boolK true) "b"
        (EsdReachable.set (PyKey.intK 1) "a" EsdReachable.empty)))

theorem esd_get_eq {V : Type} (d : EnumSafeDict V) (q : PyKey) :
    esd_get d q =
      match typeFind? d.contents (ptype q) with
      | none => Except.error q
      | some sec =>
        match dictFind? sec q with
        | none => Except.error q
        | some v => Except.ok v := by
  unfold esd_get esd_contains
  cases htf : typeFind? d.contents (ptype q) with
  | none => simp [htf]
  | some sec =>
    cases hdf : dictFind? sec q with
    | none => simp [htf, hdf]
    | some v => simp [htf, hdf]

theorem all_not_pyEq_mono {V : Type} (a k : PyKey) (hak : pyEq a k = true) :
    ∀ rest : List (PyKey × V), rest.all (fun kv => !(pyEq kv.1 a)) = true →
      rest.all (fun kv => !(pyEq kv.1 k)) = true := by
  intro rest hall
  rw [List.all_eq_true] at hall ⊢
  intro kv hkv
  have h1 := hall kv hkv
  simp only [Bool.not_eq_true'] at h1 ⊢
  by_cases h2 : pyEq kv.1 k = true
  · have hka : pyEq k a = true := by rw [pyEq_symm]; exact hak
    have := pyEq_trans kv.1 k a h2 hka
    rw [this] at h1
    cases h1
  · cases hcase : pyEq kv.1 k
    · rfl
    · exact absurd hcase h2

theorem dictFind?_dictDel_self {V : Type} (k : PyKey) :
    ∀ sec : List (PyKey × V), noDupKeys sec = true → dictFind? (dictDel sec k) k = none := by
  intro sec
  induction sec with
  | nil => intro _; rfl
  | cons e rest ih =>
    intro hnd
    obtain ⟨a, b⟩ := e
    rw [noDupKeys, Bool.and_eq_true] at hnd
    by_cases h : pyEq a k = true
    · rw [show dictDel ((a, b) :: rest) k = rest from by simp [dictDel, h]]
      exact dictFind?_eq_none_of_all k rest (all_not_pyEq_mono a k h rest hnd.1)
    · rw [show dictDel ((a, b) :: rest) k = (a, b) :: dictDel rest k from by simp [dictDel, h]]
      rw [show dictFind? ((a, b) :: dictDel rest k) k
          = if pyEq a k then some b else dictFind? (dictDel rest k) k from rfl]
      rw [if_neg h]
      exact ih hnd.2

theorem dictFind?_dictDel_other {V : Type} (k q : PyKey) (hne : pyEq q k = false) :
    ∀ sec : List (PyKey × V), dictFind? (dictDel sec k) q = dictFind? sec q := by
  intro sec
  induction sec with
  | nil => rfl
  | cons e rest ih =>
    obtain ⟨a, b⟩ := e
    by_cases h : pyEq a k = true
    · rw [show dictDel ((a, b) :: rest) k = rest from by simp [dictDel, h]]
      have haq : ¬ pyEq a q = true := by
        intro hc
        have hqa : pyEq q a = true := by rw [pyEq_symm]; exact hc
        have := pyEq_trans q a k hqa h
        rw [this] at hne
        cases hne
      rw [show dictFind? ((a, b) :: rest) q
          = if pyEq a q then some b else dictFind? rest q from rfl]
      rw [if_neg haq]
    · rw [show dictDel ((a, b) :: rest) k = (a, b) :: dictDel rest k from by simp [dictDel, h]]
      rw [show dictFind? ((a, b) :: dictDel rest k) q
          = if pyEq a q then some b else dictFind? (dictDel rest k) q from rfl]
      rw [show dictFind? ((a, b) :: rest) q
          = if pyEq a q then some b else dictFind? rest q from rfl]
      by_cases haq : pyEq a q = true
      · rw [if_pos haq, if_pos haq]
      · rw [if_neg haq, if_neg haq]
        exact ih

theorem typeFind?_delContents_other {V : Type} (k : PyKey) (t : PyType) (ht : t ≠ ptype k) :
    ∀ cont : List (PyType × List (PyKey × V)),
      typeFind? (delContents k cont) t = typeFind? cont t := by
  intro cont
  induction cont with
  | nil => rfl
  | cons p rest ih =>
    obtain ⟨t', sec⟩ := p
    by_cases h : t' = ptype k
    · subst h
      have hne : ¬ ptype k = t := fun hc => ht hc.symm
      by_cases hemp : (dictDel sec k).isEmpty = true
      · rw [show delContents k ((ptype k, sec) :: rest) = rest from by simp [delContents, hemp]]
        rw [show typeFind? ((ptype k, sec) :: rest) t
            = if ptype k = t then some sec else typeFind? rest t from rfl]
        rw [if_neg hne]
      · rw [show delContents k ((ptype k, sec) :: rest) = (ptype k, dictDel sec k) :: rest
          from by simp [delContents, hemp]]
        rw [show typeFind? ((ptype k, dictDel sec k) :: rest) t
            = if ptype k = t then some (dictDel sec k) else typeFind? rest t from rfl]
        rw [show typeFind? ((ptype k, sec) :: rest) t
            = if ptype k = t then some sec else typeFind? rest t from rfl]
        rw [if_neg hne, if_neg hne]
    · rw [show delContents k ((t', sec) :: rest) = (t', sec) :: delContents k rest
        from by simp [delContents, h]]
      rw [show typeFind? ((t', sec) :: delContents k rest) t
          = if t' = t then some sec else typeFind? (delContents k rest) t from rfl]
      rw [show typeFind? ((t', sec) :: rest) t
          = if t' = t then some sec else typeFind? rest t from rfl]
      by_cases htt : t' = t
      · rw [if_pos htt, if_pos htt]
      · rw [if_neg htt, if_neg htt]
        exact ih

theorem typeFind?_eq_none_of_not_mem {V : Type} (t : PyType) :
    ∀ cont : List (PyType × List (PyKey × V)), t ∉ cont.map Prod.fst →
      typeFind? cont t = none := by
  intro cont
  induction cont with
  | nil => intro _; rfl
  | cons p rest ih =>
    intro hmem
    obtain ⟨t', sec⟩ := p
    have hne : ¬ t' = t := by
      intro hc
      exact hmem (by simp [hc])
    rw [show typeFind? ((t', sec) :: rest) t
        = if t' = t then some sec else typeFind? rest t from rfl]
    rw [if_neg hne]
    exact ih (fun hc => hmem (List.mem_cons_of_mem _ hc))

theorem typeFind?_delContents_self {V : Type} (k : PyKey) :
    ∀ cont : List (PyType × List (PyKey × V)), noDupTypes (cont.map Prod.fst) = true →
      typeFind? (delContents k cont) (ptype k) =
        (match typeFind? cont (ptype k) with
         | none => none
         | some sec => if (dictDel sec k).isEmpty then none else some (dictDel sec k)) := by
  intro cont
  induction cont with
  | nil => intro _; rfl
  | cons p rest ih =>
    intro hnd
    obtain ⟨t, sec⟩ := p
    rw [List.map_cons, noDupTypes, Bool.and_eq_true] at hnd
    by_cases h : t = ptype k
    · subst h
      have hnotin : ptype k ∉ rest.map Prod.fst := by
        intro hc
        have := List.all_eq_true.mp hnd.1 (ptype k) hc
        simp at this
      by_cases hemp : (dictDel sec k).isEmpty = true
      · rw [show delContents k ((ptype k, sec) :: rest) = rest from by simp [delContents, hemp]]
        rw [typeFind?_eq_none_of_not_mem (ptype k) rest hnotin]
        rw [show typeFind? ((ptype k, sec) :: rest) (ptype k) = some sec from by simp [typeFind?]]
        show none = if (dictDel sec k).isEmpty = true then none else some (dictDel sec k)
        rw [if_pos hemp]
      · rw [show delContents k ((ptype k, sec) :: rest) = (ptype k, dictDel sec k) :: rest
          from by simp [delContents, hemp]]
        rw [show typeFind? ((ptype k, dictDel sec k) :: rest) (ptype k) = some (dictDel sec k)
          from by simp [typeFind?]]
        rw [show typeFind? ((ptype k, sec) :: rest) (ptype k) = some sec from by simp [typeFind?]]
        show some (dictDel sec k)
          = if (dictDel sec k).isEmpty = true then none else some (dictDel sec k)
        rw [if_neg hemp]
    · rw [show delContents k ((t, sec) :: rest) = (t, sec) :: delContents k rest
        from by simp [delContents, h]]
      rw [show typeFind? ((t, sec) :: delContents k rest) (ptype k)
          = if t = ptype k then some sec else typeFind? (delContents k rest) (ptype k)
        from rfl]
      rw [show typeFind? ((t, sec) :: rest) (ptype k)
          = if t = ptype k then some sec else typeFind? rest (ptype k) from rfl]
      rw [if_neg h, if_neg h]
      exact ih hnd.2

theorem typeFind?_some_mem {V : Type} (t : PyType) (sec : List (PyKey × V)) :
    ∀ cont : List (PyType × List (PyKey × V)), typeFind? cont t = some sec →
      (t, sec) ∈ cont := by
  intro cont
  induction cont with
  | nil => intro hc; cases hc
  | cons p rest ih =>
    intro hfind
    obtain ⟨t', sec'⟩ := p
    rw [show typeFind? ((t', sec') :: rest) t
        = if t' = t then some sec' else typeFind? rest t from rfl] at hfind
    by_cases h : t' = t
    · rw [if_pos h] at hfind
      subst h
      have := Option.some.inj hfind
      subst this
      exact List.mem_cons_self _ _
    · rw [if_neg h] at hfind
      exact List.mem_cons_of_mem _ (ih hfind)

theorem esd_get_delContents {V : Type} (d : EnumSafeDict V) (k : PyKey)
    (hwf : esd_wf d = true) (hc : esd_contains d k = true) :
    ∀ q, esd_get (EnumSafeDict.mk (delContents k d.contents)) q =
      if q = k then Except.error q else esd_get d q := by
  rw [esd_wf, Bool.and_eq_true] at hwf
  obtain ⟨hndt, hall⟩ := hwf
  unfold esd_contains at hc
  cases htf : typeFind? d.contents (ptype k) with
  | none =>
    rw [htf] at hc
    simp at hc
  | some sec =>
    rw [htf] at hc
    have hsecwf := List.all_eq_true.mp hall (ptype k, sec) (typeFind?_some_mem _ _ _ htf)
    rw [secWF, Bool.and_eq_true, Bool.and_eq_true] at hsecwf
    obtain ⟨⟨_, hty⟩, hnk⟩ := hsecwf
    intro q
    have hL : esd_get (EnumSafeDict.mk (delContents k d.contents)) q =
        match typeFind? (delContents k d.contents) (ptype q) with
        | none => Except.error q
        | some s =>
          match dictFind? s q with
          | none => Except.error q
          | some v => Except.ok v := esd_get_eq _ q
    rw [hL, esd_get_eq d q]
    by_cases hpt : ptype q = ptype k
    · by_cases hqk : q = k
      · subst hqk
        rw [if_pos rfl, typeFind?_delContents_self q d.contents hndt, htf]
        show (match (if (dictDel sec q).isEmpty = true then none
                     else some (dictDel sec q) : Option (List (PyKey × V))) with
              | none => Except.error q
              | some s =>
                match dictFind? s q with
                | none => Except.error q
                | some v => Except.ok v) = Except.error q
        by_cases hemp : (dictDel sec q).isEmpty = true
        · rw [if_pos hemp]
        · rw [if_neg hemp]
          show (match dictFind? (dictDel sec q) q with
                | none => Except.error q
                | some v => Except.ok v) = Except.error q
          rw [dictFind?_dictDel_self q sec hnk]
      · rw [if_neg hqk]
        have hne : pyEq q k = false := by
          cases hcase : pyEq q k
          · rfl
          · exact absurd ((pyEq_same_type hpt).mp hcase) hqk
        rw [hpt, typeFind?_delContents_self k d.contents hndt, htf]
        rw [show (match (some sec : Option (List (PyKey × V))) with
            | none => none
            | some s => if (dictDel s k).isEmpty = true then none
                        else some (dictDel s k)) =
            (if (dictDel sec k).isEmpty = true then none else some (dictDel sec k))
          from rfl]
        by_cases hemp : (dictDel sec k).isEmpty = true
        · rw [if_pos hemp]
          have hnil : dictDel sec k = [] := (isEmpty_true_iff _).mp hemp
          have hfq : dictFind? sec q = none := by
            rw [← dictFind?_dictDel_other k q hne sec, hnil]
            rfl
          show (Except.error q : Except PyKey V) =
            match dictFind? sec q with
            | none => Except.error q
            | some v => Except.ok v
          rw [hfq]
        · rw [if_neg hemp]
          show (match dictFind? (dictDel sec k) q with
                | none => Except.error q
                | some v => Except.ok v) =
              match dictFind? sec q with
              | none => Except.error q
              | some v => Except.ok v
          rw [dictFind?_dictDel_other k q hne sec]
    · have hqk : ¬ q = k := fun hc' => hpt (by rw [hc'])
      rw [if_neg hqk]
      rw [typeFind?_delContents_other k (ptype q) hpt d.contents]

/-- C7: `get(key)` fails with `KeyError(key)` exactly when `contains(key)`
is false, and returns a stored value otherwise; `delete(key)` fails with
`KeyError(key)` exactly when the key is absent under type-scoped lookup,
leaving the container unchanged on that error; when the key is present,
delete removes exactly that entry — afterwards looking up the deleted key
fails and every other key reads exactly as before. -/
theorem esd_error_behavior {V : Type} (d : EnumSafeDict V) (k : PyKey)
    (hwf : esd_wf d = true) :
    (esd_get d k = Except.error k ↔ esd_contains d k = false) ∧
    (esd_contains d k = true → ∃ v, esd_get d k = Except.ok v) ∧
    ((esd_delitem d k).1 = Except.error k ↔ esd_contains d k = false) ∧
    ((esd_delitem d k).1 = Except.error k → (esd_delitem d k).2 = d) ∧
    (esd_contains d k = true →
      ∀ q, esd_get (esd_delitem d k).2 q =
        if q = k then Except.error q else esd_get d q) := by
  by_cases hc : esd_contains d k = true
  · have hok : ∃ v, esd_get d k = Except.ok v := by
      rw [esd_get_eq]
      unfold esd_contains at hc
      cases htf : typeFind? d.contents (ptype k) with
      | none =>
        rw [htf] at hc
        simp at hc
      | some sec =>
        rw [htf] at hc
        obtain ⟨v, hv⟩ := Option.isSome_iff_exists.mp hc
        refine ⟨v, ?_⟩
        show (match dictFind? sec k with
              | none => Except.error k
              | some v => Except.ok v) = Except.ok v
        rw [hv]
    obtain ⟨v, hv⟩ := hok
    have hdel1 : (esd_delitem d k).1 = Except.ok () := by
      unfold esd_delitem
      rw [if_pos hc]
    have hdel2 : (esd_delitem d k).2 = EnumSafeDict.mk (delContents k d.contents) := by
      unfold esd_delitem
      rw [if_pos hc]
    refine ⟨by simp [hv, hc], fun _ => ⟨v, hv⟩, by simp [hdel1, hc], ?_, ?_⟩
    · intro he
      rw [hdel1] at he
      simp at he
    · intro _
      rw [hdel2]
      exact esd_get_delContents d k hwf hc
  · have hcf : esd_contains d k = false := by
      cases hcase : esd_contains d k
      · rfl
      · exact absurd hcase hc
    have hget : esd_get d k = Except.error k := by
      unfold esd_get
      rw [if_neg hc]
    have hdel : esd_delitem d k = (Except.error k, d) := by
      unfold esd_delitem
      rw [if_neg hc]
    refine ⟨by simp [hget, hcf], ?_, by simp [hdel, hcf], by intro _; rw [hdel], ?_⟩
    · intro hcontra
      rw [hcontra] at hcf
      cases hcf
    · intro hcontra
      rw [hcontra] at hcf
      cases hcf

/-- C7 witness: a one-entry dict over `int`; deleting the present key `1`
and reading back behaves as characterized. -/
theorem esd_error_behavior_witness :
    esd_wf (EnumSafeDict.mk [(PyType.intT, [(PyKey.intK 1, "a")])]) = true ∧
    ((esd_get (EnumSafeDict.mk [(PyType.intT, [(PyKey.intK 1, "a")])]) (PyKey.intK 1) =
        Except.error (PyKey.intK 1) ↔
      esd_contains (EnumSafeDict.mk [(PyType.intT, [(PyKey.intK 1, "a")])])
        (PyKey.intK 1) = false) ∧
    (esd_contains (EnumSafeDict.mk [(PyType.intT, [(PyKey.intK 1, "a")])])
        (PyKey.intK 1) = true →
      ∃ v, esd_get (EnumSafeDict.mk [(PyType.intT, [(PyKey.intK 1, "a")])])
        (PyKey.intK 1) = Except.ok v) ∧
    ((esd_delitem (EnumSafeDict.mk [(PyType.intT, [(PyKey.intK 1, "a")])])
        (PyKey.intK 1)).1 = Except.error (PyKey.intK 1) ↔
      esd_contains (EnumSafeDict.mk [(PyType.intT, [(PyKey.intK 1, "a")])])
        (PyKey.intK 1) = false) ∧
    ((esd_delitem (EnumSafeDict.mk [(PyType.intT, [(PyKey.intK 1, "a")])])
        (PyKey.intK 1)).1 = Except.error (PyKey.intK 1) →
      (esd_delitem (EnumSafeDict.mk [(PyType.intT, [(PyKey.intK 1, "a")])])
        (PyKey.intK 1)).2 = EnumSafeDict.mk [(PyType.intT, [(PyKey.intK 1, "a")])]) ∧
    (esd_contains (EnumSafeDict.mk [(PyType.intT, [(PyKey.intK 1, "a")])])
        (PyKey.intK 1) = true →
      ∀ q, esd_get (esd_delitem (EnumSafeDict.mk [(PyType.intT, [(PyKey.intK 1, "a")])])
          (PyKey.intK 1)).2 q =
        if q = PyKey.intK 1 then Except.error q
        else esd_get (EnumSafeDict.mk [(PyType.intT, [(PyKey.intK 1, "a")])]) q)) :=
  ⟨by decide,
    esd_error_behavior (EnumSafeDict.mk [(PyType.intT, [(PyKey.intK 1, "a")])])
      (PyKey.intK 1) (by decide)⟩

theorem take_set_of_le {α : Type} : ∀ (l : List α) (i : Nat) (v : α) (n : Nat), n ≤ i →
    (l.set i v).take n = l.take n := by
  intro l
  induction l with
  | nil => intro i v n _; simp
  | cons a as ih =>
    intro i v n hn
    cases n with
    | zero => simp
    | succ n =>
      cases i with
      | zero => omega
      | succ i =>
        rw [show (a :: as).set (i + 1) v = a :: as.set i v from rfl]
        rw [show (a :: as.set i v).take (n + 1) = a :: (as.set i v).take n from rfl]
        rw [show (a :: as).take (n + 1) = a :: as.take n from rfl]
        rw [ih i v n (by omega)]

theorem copyRows_mem : ∀ (refs : List Nat) (st : Store),
    ∃ ext, (copyRows st refs).1.mem = st.mem ++ ext := by
  intro refs
  induction refs with
  | nil => intro st; exact ⟨[], by simp [copyRows]⟩
  | cons r rest ih =>
    intro st
    obtain ⟨ext, hext⟩ := ih (Store.mk (st.mem ++ [readRef st r]))
    refine ⟨readRef st r :: ext, ?_⟩
    rw [show (copyRows st (r :: rest)).1
        = (copyRows (Store.mk (st.mem ++ [readRef st r])) rest).1 from rfl]
    rw [hext]
    simp

theorem copyRows_refs_ge : ∀ (refs : List Nat) (st : Store) (r' : Nat),
    r' ∈ (copyRows st refs).2 → st.mem.length ≤ r' := by
  intro refs
  induction refs with
  | nil => intro st r' h; cases h
  | cons r rest ih =>
    intro st r' h
    rw [show (copyRows st (r :: rest)).2
        = st.mem.length :: (copyRows (Store.mk (st.mem ++ [readRef st r])) rest).2 from rfl] at h
    rcases List.mem_cons.mp h with h1 | h1
    · omega
    · have h2 := ih (Store.mk (st.mem ++ [readRef st r])) r' h1
      have hlen : (Store.mk (st.mem ++ [readRef st r])).mem.length = st.mem.length + 1 := by
        simp
      omega

theorem groupLoop_take (g : Nat) : ∀ (refs : List Nat) (st : Store)
    (gs : List (String × List Nat)) (n : Nat), (∀ r ∈ refs, n ≤ r) →
    (groupLoop g refs st gs).1.mem.take n = st.mem.take n := by
  intro refs
  induction refs with
  | nil => intro st gs n _; rfl
  | cons r rest ih =>
    intro st gs n hge
    cases hpop : listPop (readRef st r) g with
    | none =>
      rw [show (groupLoop g (r :: rest) st gs).1 = st from by simp [groupLoop, hpop]]
    | some p =>
      obtain ⟨c, rr⟩ := p
      rw [show (groupLoop g (r :: rest) st gs).1
          = (groupLoop g rest (writeRef st r rr) (addToGroupR gs c r)).1 from by
        simp [groupLoop, hpop]]
      rw [ih (writeRef st r rr) (addToGroupR gs c r) n
        (fun x hx => hge x (List.mem_cons_of_mem r hx))]
      exact take_set_of_le st.mem r rr n (hge r (List.mem_cons_self r rest))

theorem fmt_table_heap_go_frame (g : Nat) (st1 : Store) (h1 : Nat) (rowRefs : List Nat)
    (headers' : List String) (n : Nat) (hh : n ≤ h1) (hn : n ≤ st1.mem.length) :
    (fmt_table_heap_go g st1 h1 rowRefs headers').2.mem.take n = st1.mem.take n := by
  have h2 : (fmt_table_heap_go g st1 h1 rowRefs headers').2
      = (groupLoop g (copyRows (writeRef st1 h1 headers') rowRefs).2
          (copyRows (writeRef st1 h1 headers') rowRefs).1 []).1 := rfl
  rw [h2]
  have hwlen : (writeRef st1 h1 headers').mem.length = st1.mem.length := by
    show (st1.mem.set h1 headers').length = st1.mem.length
    exact List.length_set st1.mem h1 headers'
  have hrefs : ∀ r ∈ (copyRows (writeRef st1 h1 headers') rowRefs).2, n ≤ r := by
    intro r hr
    have h3 := copyRows_refs_ge rowRefs (writeRef st1 h1 headers') r hr
    omega
  rw [groupLoop_take g _ _ _ n hrefs]
  obtain ⟨ext, hext⟩ := copyRows_mem rowRefs (writeRef st1 h1 headers')
  rw [hext]
  rw [List.take_append_of_le_length (by omega)]
  exact take_set_of_le st1.mem h1 headers' n hh

/-- C10: `fmt_table` does not mutate the caller's arguments.  In the heap
model, every list object that existed before the call — in particular the
caller's row objects and headers object — holds exactly the same value
after the call, for any `group_by`: the group column is popped only from
freshly allocated copies (`list(headers)` and `[list(row) for row in
rows]`), never from the inputs themselves. -/
theorem fmt_table_heap_frame (st : Store) (rowRefs : List Nat) (headersRef : Nat)
    (group_by : Option Nat) :
    (fmt_table_heap st rowRefs headersRef group_by).2.mem.take st.mem.length = st.mem := by
  cases group_by with
  | none =>
    rw [show (fmt_table_heap st rowRefs headersRef none).2 = st from rfl]
    exact List.take_length st.mem
  | some g =>
    have ha1 : (allocRef st (readRef st headersRef)).1.mem
        = st.mem ++ [readRef st headersRef] := rfl
    have ha2 : (allocRef st (readRef st headersRef)).2 = st.mem.length := rfl
    cases hpop : listPop (readRef (allocRef st (readRef st headersRef)).1
        (allocRef st (readRef st headersRef)).2) g with
    | none =>
      simp only [fmt_table_heap]
      rw [hpop]
      show ((allocRef st (readRef st headersRef)).1).mem.take st.mem.length = st.mem
      rw [ha1, List.take_append_of_le_length (le_refl _), List.take_length]
    | some pr =>
      simp only [fmt_table_heap]
      rw [hpop]
      show (fmt_table_heap_go g (allocRef st (readRef st headersRef)).1
          (allocRef st (readRef st headersRef)).2 rowRefs pr.2).2.mem.take st.mem.length = st.mem
      rw [fmt_table_heap_go_frame g _ _ rowRefs pr.2 st.mem.length
        (by rw [ha2]) (by rw [ha1]; simp)]
      rw [ha1, List.take_append_of_le_length (le_refl _), List.take_length]

theorem readRef_congr {st' : Store} {l : List (List String)} (h : st'.mem = l) (r : Nat) :
    readRef st' r = readRef (Store.mk l) r := by
  show st'.mem.getD r [] = l.getD r []
  rw [h]

theorem readRef_front {l ext : List (List String)} {r : Nat} (h : r < l.length) :
    readRef (Store.mk (l ++ ext)) r = readRef (Store.mk l) r := by
  show (l ++ ext).getD r [] = l.getD r []
  rw [List.getD_eq_getElem?_getD, List.getD_eq_getElem?_getD, List.getElem?_append, if_pos h]

theorem readRef_append_at (l ext : List (List String)) (i : Nat) :
    readRef (Store.mk (l ++ ext)) (l.length + i) = ext.getD i [] := by
  show (l ++ ext).getD (l.length + i) [] = ext.getD i []
  rw [List.getD_eq_getElem?_getD, List.getD_eq_getElem?_getD]
  rw [List.getElem?_append_right (Nat.le_add_right _ _)]
  rw [show l.length + i - l.length = i from by omega]

theorem readRef_append_self (l : List (List String)) (x : List String) :
    readRef (Store.mk (l ++ [x])) l.length = x := by
  have h := readRef_append_at l [x] 0
  simpa using h

theorem readRef_set_ne (st : Store) (i r : Nat) (v : List String) (h : ¬ i = r) :
    readRef (writeRef st i v) r = readRef st r := by
  show (st.mem.set i v).getD r [] = st.mem.getD r []
  rw [List.getD_eq_getElem?_getD, List.getD_eq_getElem?_getD, List.getElem?_set_ne h]

theorem readRef_set_self (st : Store) (i : Nat) (v : List String) (h : i < st.mem.length) :
    readRef (writeRef st i v) i = v := by
  show (st.mem.set i v).getD i [] = v
  rw [List.getD_eq_getElem?_getD, List.getElem?_set_self h]
  rfl

theorem set_append_length (l : List (List String)) (x y : List String) :
    (l ++ [x]).set l.length y = l ++ [y] := by
  induction l with
  | nil => rfl
  | cons a as ih =>
    rw [show ((a :: as) ++ [x]).set (a :: as).length y
        = a :: ((as ++ [x]).set as.length y) from rfl, ih]
    rfl

theorem readRef_alloc (st : Store) (v : List String) :
    readRef (allocRef st v).1 (allocRef st v).2 = v :=
  readRef_append_self st.mem v

theorem popRows_length (g : Nat) : ∀ (rs : List (List String)) (keyed : List (String × List String)),
    popRows g rs = Except.ok keyed → keyed.length = rs.length := by
  intro rs
  induction rs with
  | nil =>
    intro keyed h
    have h2 : ([] : List (String × List String)) = keyed := Except.ok.inj h
    rw [← h2]
    rfl
  | cons row rest ih =>
    intro keyed h
    cases hpop : listPop row g with
    | none =>
      rw [show popRows g (row :: rest) = Except.error "IndexError: pop index out of range"
        from by simp [popRows, hpop]] at h
      simp at h
    | some p =>
      obtain ⟨c, rr⟩ := p
      cases hrest : popRows g rest with
      | error e =>
        rw [show popRows g (row :: rest) = Except.error e from by simp [popRows, hpop, hrest]] at h
        simp at h
      | ok ks =>
        rw [show popRows g (row :: rest) = Except.ok ((c, rr) :: ks)
          from by simp [popRows, hpop, hrest]] at h
        have hk := Except.ok.inj h
        rw [← hk]
        simp [ih ks hrest]

theorem getD_map_snd : ∀ (keyed : List (String × List String)) (i : Nat), i < keyed.length →
    (keyed.map Prod.snd).getD i [] = (keyed.getD i ("", [])).2 := by
  intro keyed
  induction keyed with
  | nil => intro i h; simp at h
  | cons p rest ih =>
    intro i h
    cases i with
    | zero => rfl
    | succ i => exact ih i (by simpa using Nat.lt_of_succ_lt_succ h)

theorem map_range' (f : Nat → List String) : ∀ (n start : Nat) (l : List (List String)),
    l.length = n → (∀ i, i < n → f (start + i) = l.getD i []) →
    (List.range' start n).map f = l := by
  intro n
  induction n with
  | zero =>
    intro start l hl _
    cases l with
    | nil => rfl
    | cons x rest => simp at hl
  | succ n ih =>
    intro start l hl hf
    cases l with
    | nil => simp at hl
    | cons x rest =>
      rw [show List.range' start (n + 1) = start :: List.range' (start + 1) n from rfl]
      rw [List.map_cons]
      have h0 : f start = x := by
        have := hf 0 (by omega)
        simpa using this
      rw [h0, ih (start + 1) rest (by simpa using hl) (fun i hi => by
        have h1 := hf (i + 1) (by omega)
        rw [show start + 1 + i = start + (i + 1) from by omega]
        exact h1)]

theorem copyRows_spec : ∀ (refs : List Nat) (st : Store), (∀ r ∈ refs, r < st.mem.length) →
    (copyRows st refs).1.mem = st.mem ++ refs.map (readRef st) ∧
    (copyRows st refs).2 = List.range' st.mem.length refs.length := by
  intro refs
  induction refs with
  | nil => intro st _; exact ⟨by simp [copyRows], by simp [copyRows]⟩
  | cons r rest ih =>
    intro st hv
    have hlen : (Store.mk (st.mem ++ [readRef st r])).mem.length = st.mem.length + 1 := by simp
    obtain ⟨h1, h2⟩ := ih (Store.mk (st.mem ++ [readRef st r])) (fun r' hr' => by
      have := hv r' (List.mem_cons_of_mem r hr')
      omega)
    have hmapeq : rest.map (readRef (Store.mk (st.mem ++ [readRef st r])))
        = rest.map (readRef st) := by
      apply List.map_congr_left
      intro x hx
      exact readRef_front (hv x (List.mem_cons_of_mem r hx))
    constructor
    · rw [show (copyRows st (r :: rest)).1
        = (copyRows (Store.mk (st.mem ++ [readRef st r])) rest).1 from rfl, h1, hmapeq]
      simp
    · rw [show (copyRows st (r :: rest)).2
        = st.mem.length :: (copyRows (Store.mk (st.mem ++ [readRef st r])) rest).2 from rfl, h2]
      rw [hlen]
      rfl

theorem addToGroupR_map (R : Nat → List String) (c : String) (r : Nat) :
    ∀ gs : List (String × List Nat),
      (addToGroupR gs c r).map (fun p => (p.1, p.2.map R))
        = addToGroup (gs.map (fun p => (p.1, p.2.map R))) c (R r) := by
  intro gs
  induction gs with
  | nil => rfl
  | cons p rest ih =>
    obtain ⟨k', rs⟩ := p
    by_cases h : k' = c
    · rw [show addToGroupR ((k', rs) :: rest) c r = (k', rs ++ [r]) :: rest
        from by simp [addToGroupR, h]]
      rw [show addToGroup (((k', rs) :: rest).map (fun p => (p.1, p.2.map R))) c (R r)
          = (k', rs.map R ++ [R r]) :: rest.map (fun p => (p.1, p.2.map R)) from by
        simp [addToGroup, h]]
      simp
    · rw [show addToGroupR ((k', rs) :: rest) c r = (k', rs) :: addToGroupR rest c r
        from by simp [addToGroupR, h]]
      rw [show addToGroup (((k', rs) :: rest).map (fun p => (p.1, p.2.map R))) c (R r)
          = (k', rs.map R) :: addToGroup (rest.map (fun p => (p.1, p.2.map R))) c (R r) from by
        simp [addToGroup, h]]
      rw [List.map_cons, ih]

theorem refGroups_map (R : Nat → List String) :
    ∀ (keyed : List (String × List String)) (gs : List (String × List Nat)) (start : Nat),
      (∀ i, i < keyed.length → R (start + i) = (keyed.getD i ("", [])).2) →
      (refGroups gs start keyed).map (fun p => (p.1, p.2.map R))
        = keyed.foldl (fun acc cr => addToGroup acc cr.1 cr.2)
            (gs.map (fun p => (p.1, p.2.map R))) := by
  intro keyed
  induction keyed with
  | nil => intro gs start _; rfl
  | cons p rest ih =>
    intro gs start hR
    obtain ⟨c, rr⟩ := p
    rw [show refGroups gs start ((c, rr) :: rest)
        = refGroups (addToGroupR gs c start) (start + 1) rest from rfl]
    rw [ih (addToGroupR gs c start) (start + 1) (fun i hi => by
      have h1 := hR (i + 1) (by simpa using Nat.succ_lt_succ hi)
      rw [show start + 1 + i = start + (i + 1) from by omega]
      exact h1)]
    rw [addToGroupR_map R c start gs]
    have h0 : R start = rr := by
      have := hR 0 (by simp)
      simpa using this
    rw [h0]
    rfl

theorem groupLoop_run (g : Nat) : ∀ (rs : List (List String)) (start : Nat) (st : Store)
    (gs : List (String × List Nat)),
    (∀ i, i < rs.length → readRef st (start + i) = rs.getD i []) →
    start + rs.length ≤ st.mem.length →
    (match popRows g rs with
     | Except.error e =>
       (groupLoop g (List.range' start rs.length) st gs).2 = Except.error e
     | Except.ok keyed =>
       (groupLoop g (List.range' start rs.length) st gs).2
           = Except.ok (refGroups gs start keyed) ∧
       (∀ r, r < start →
         readRef (groupLoop g (List.range' start rs.length) st gs).1 r = readRef st r) ∧
       (∀ i, i < rs.length →
         readRef (groupLoop g (List.range' start rs.length) st gs).1 (start + i)
           = (keyed.getD i ("", [])).2)) := by
  intro rs
  induction rs with
  | nil =>
    intro start st gs _ _
    exact ⟨rfl, fun r _ => rfl, fun i hi => absurd hi (Nat.not_lt_zero i)⟩
  | cons rv rest ih =>
    intro start st gs hread hlen
    have hlc : (rv :: rest).length = rest.length + 1 := rfl
    have hrv : readRef st start = rv := by
      have := hread 0 (by simp)
      simpa using this
    cases hpop : listPop rv g with
    | none =>
      rw [show popRows g (rv :: rest) = Except.error "IndexError: pop index out of range"
        from by simp [popRows, hpop]]
      show (groupLoop g (List.range' start (rv :: rest).length) st gs).2
          = Except.error "IndexError: pop index out of range"
      rw [show List.range' start (rv :: rest).length
          = start :: List.range' (start + 1) rest.length from rfl]
      rw [show groupLoop g (start :: List.range' (start + 1) rest.length) st gs
          = (st, Except.error "IndexError: pop index out of range") from by
        simp [groupLoop, hrv, hpop]]
    | some p =>
      obtain ⟨c, rr⟩ := p
      have hstep : groupLoop g (start :: List.range' (start + 1) rest.length) st gs
          = groupLoop g (List.range' (start + 1) rest.length) (writeRef st start rr)
              (addToGroupR gs c start) := by
        simp [groupLoop, hrv, hpop]
      have hread' : ∀ i, i < rest.length →
          readRef (writeRef st start rr) (start + 1 + i) = rest.getD i [] := by
        intro i hi
        rw [readRef_set_ne st start (start + 1 + i) rr (by omega)]
        have h1 := hread (i + 1) (by omega)
        rw [show start + 1 + i = start + (i + 1) from by omega]
        exact h1
      have hwlen : (writeRef st start rr).mem.length = st.mem.length := by
        show (st.mem.set start rr).length = st.mem.length
        exact List.length_set st.mem start rr
      have hlen' : start + 1 + rest.length ≤ (writeRef st start rr).mem.length := by omega
      have IH := ih (start + 1) (writeRef st start rr) (addToGroupR gs c start) hread' hlen'
      cases hrest : popRows g rest with
      | error e =>
        rw [hrest] at IH
        have IH' : (groupLoop g (List.range' (start + 1) rest.length)
            (writeRef st start rr) (addToGroupR gs c start)).2 = Except.error e := IH
        rw [show popRows g (rv :: rest) = Except.error e from by simp [popRows, hpop, hrest]]
        show (groupLoop g (List.range' start (rv :: rest).length) st gs).2 = Except.error e
        rw [show List.range' start (rv :: rest).length
            = start :: List.range' (start + 1) rest.length from rfl, hstep]
        exact IH'
      | ok ks =>
        rw [hrest] at IH
        have IH' : (groupLoop g (List.range' (start + 1) rest.length)
              (writeRef st start rr) (addToGroupR gs c start)).2
                = Except.ok (refGroups (addToGroupR gs c start) (start + 1) ks) ∧
            (∀ r, r < start + 1 →
              readRef (groupLoop g (List.range' (start + 1) rest.length)
                (writeRef st start rr) (addToGroupR gs c start)).1 r
                = readRef (writeRef st start rr) r) ∧
            (∀ i, i < rest.length →
              readRef (groupLoop g (List.range' (start + 1) rest.length)
                (writeRef st start rr) (addToGroupR gs c start)).1 (start + 1 + i)
                = (ks.getD i ("", [])).2) := IH
        obtain ⟨IH1, IH2, IH3⟩ := IH'
        rw [show popRows g (rv :: rest) = Except.ok ((c, rr) :: ks)
          from by simp [popRows, hpop, hrest]]
        show (groupLoop g (List.range' start (rv :: rest).length) st gs).2
            = Except.ok (refGroups gs start ((c, rr) :: ks)) ∧
          (∀ r, r < start →
            readRef (groupLoop g (List.range' start (rv :: rest).length) st gs).1 r
              = readRef st r) ∧
          (∀ i, i < (rv :: rest).length →
            readRef (groupLoop g (List.range' start (rv :: rest).length) st gs).1 (start + i)
              = (((c, rr) :: ks).getD i ("", [])).2)
        rw [show List.range' start (rv :: rest).length
            = start :: List.range' (start + 1) rest.length from rfl, hstep]
        refine ⟨?_, ?_, ?_⟩
        · rw [IH1]
          rfl
        · intro r hr
          rw [IH2 r (by omega)]
          exact readRef_set_ne st start r rr (by omega)
        · intro i hi
          cases i with
          | zero =>
            rw [show start + 0 = start from rfl]
            rw [IH2 start (by omega)]
            rw [readRef_set_self st start rr (by omega)]
            rfl
          | succ i =>
            have h1 := IH3 i (by omega)
            rw [show start + (i + 1) = start + 1 + i from by omega]
            exact h1

theorem fmt_table_heap_output (st : Store) (rowRefs : List Nat) (headersRef : Nat)
    (gb : Option Nat) (hrows : ∀ r ∈ rowRefs, r < st.mem.length) :
    (fmt_table_heap st rowRefs headersRef gb).1
      = fmt_table (rowRefs.map (readRef st)) (readRef st headersRef) gb := by
  cases gb with
  | none => rfl
  | some g =>
    simp only [fmt_table_heap]
    rw [readRef_alloc st (readRef st headersRef)]
    cases hpop : listPop (readRef st headersRef) g with
    | none =>
      show (Except.error "IndexError: pop index out of range" : Except String String)
          = fmt_table (rowRefs.map (readRef st)) (readRef st headersRef) (some g)
      rw [show fmt_table (rowRefs.map (readRef st)) (readRef st headersRef) (some g)
          = Except.error "IndexError: pop index out of range" from by simp [fmt_table, hpop]]
    | some pr =>
      obtain ⟨c, headers'⟩ := pr
      show (fmt_table_heap_go g (allocRef st (readRef st headersRef)).1
          (allocRef st (readRef st headersRef)).2 rowRefs headers').1
        = fmt_table (rowRefs.map (readRef st)) (readRef st headersRef) (some g)
      simp only [fmt_table_heap_go]
      set v := readRef st headersRef with hv
      set A := allocRef st v with hA
      set ST2 := writeRef A.1 A.2 headers' with hST2
      set CP := copyRows ST2 rowRefs with hCPdef
      set rowsVals := rowRefs.map (readRef st) with hRV
      have hA2 : A.2 = st.mem.length := rfl
      have hst2mem : ST2.mem = st.mem ++ [headers'] := by
        show (st.mem ++ [v]).set st.mem.length headers' = st.mem ++ [headers']
        exact set_append_length st.mem v headers'
      have hst2len : ST2.mem.length = st.mem.length + 1 := by rw [hst2mem]; simp
      have hmapc : rowRefs.map (readRef ST2) = rowsVals := by
        rw [hRV]
        apply List.map_congr_left
        intro r hr
        rw [readRef_congr hst2mem r]
        exact readRef_front (hrows r hr)
      have hvalid : ∀ r ∈ rowRefs, r < ST2.mem.length := fun r hr => by
        have := hrows r hr
        omega
      obtain ⟨hcp1, hcp2⟩ := copyRows_spec rowRefs ST2 hvalid
      have hlv : rowsVals.length = rowRefs.length := by rw [hRV]; exact List.length_map _ _
      have hcp2' : CP.2 = List.range' ST2.mem.length rowsVals.length := by
        rw [hcp2, hlv]
      have hcp1' : CP.1.mem = ST2.mem ++ rowsVals := by rw [hcp1, hmapc]
      have hcplen : CP.1.mem.length = ST2.mem.length + rowsVals.length := by
        rw [hcp1']
        simp
      have hread : ∀ i, i < rowsVals.length →
          readRef CP.1 (ST2.mem.length + i) = rowsVals.getD i [] := by
        intro i hi
        rw [readRef_congr hcp1' (ST2.mem.length + i)]
        exact readRef_append_at ST2.mem rowsVals i
      have hlen2 : ST2.mem.length + rowsVals.length ≤ CP.1.mem.length := by omega
      rw [hcp2']
      have hGL := groupLoop_run g rowsVals ST2.mem.length CP.1 [] hread hlen2
      set gl := groupLoop g (List.range' ST2.mem.length rowsVals.length) CP.1 [] with hgl
      cases hpr : popRows g rowsVals with
      | error e =>
        rw [hpr] at hGL
        have hGL' : gl.2 = Except.error e := hGL
        rw [hGL']
        show (Except.error e : Except String String) = fmt_table rowsVals v (some g)
        rw [show fmt_table rowsVals v (some g) = Except.error e from by
          simp [fmt_table, hpop, hpr]]
      | ok keyed =>
        rw [hpr] at hGL
        have hGL' : gl.2 = Except.ok (refGroups [] ST2.mem.length keyed) ∧
            (∀ r, r < ST2.mem.length → readRef gl.1 r = readRef CP.1 r) ∧
            (∀ i, i < rowsVals.length →
              readRef gl.1 (ST2.mem.length + i) = (keyed.getD i ("", [])).2) := hGL
        obtain ⟨GL1, GL2, GL3⟩ := hGL'
        have hkl : keyed.length = rowsVals.length := popRows_length g rowsVals keyed hpr
        rw [GL1]
        show fmt_core ((List.range' ST2.mem.length rowsVals.length).map (readRef gl.1))
            (readRef gl.1 A.2)
            ((refGroups [] ST2.mem.length keyed).map
              (fun p => (p.1, p.2.map (readRef gl.1))))
          = fmt_table rowsVals v (some g)
        have E1 : (List.range' ST2.mem.length rowsVals.length).map (readRef gl.1)
            = keyed.map Prod.snd := by
          apply map_range'
          · rw [List.length_map, hkl]
          · intro i hi
            rw [GL3 i hi]
            rw [getD_map_snd keyed i (by omega)]
        have E2 : readRef gl.1 A.2 = headers' := by
          rw [hA2]
          rw [GL2 st.mem.length (by omega)]
          rw [readRef_congr hcp1' st.mem.length]
          rw [readRef_front (show st.mem.length < ST2.mem.length from by omega)]
          rw [readRef_congr (show (Store.mk ST2.mem).mem = st.mem ++ [headers']
            from hst2mem) st.mem.length]
          exact readRef_append_self st.mem headers'
        have E3 : (refGroups [] ST2.mem.length keyed).map
            (fun p => (p.1, p.2.map (readRef gl.1))) = buildGroups keyed := by
          rw [refGroups_map (readRef gl.1) keyed [] ST2.mem.length
            (fun i hi => GL3 i (by omega))]
          rfl
        rw [E1, E2, E3]
        rw [show fmt_table rowsVals v (some g)
            = fmt_core (keyed.map Prod.snd) headers' (buildGroups keyed) from by
          simp [fmt_table, hpop, hpr]]
